import Mathlib

/-!
Verification development for the decomposition workflow engine of the
Fissio demo repository.

The development shallowly embeds:
* the tree model (`TreeNode`, `AITreeNode`, statuses) from `src/types`;
* the workflow orchestrator `WorkflowController` (`executeWorkflow`,
  `ensureUniqueIds`, `getLeafNodes`, `updateNodeInTree`,
  `replaceNodeInTree`, `createWorkflowState`, `convertToTreeNode`)
  from `src/lib/ai-agent`;
* the stream encoder/transport of `src/app/api/decompose-stream/route.ts`;
* the session consumer (`startStreamDecomposition`, `redecomposeFromNode`)
  of `src/store/useFlowStore.ts`.

External AI calls, the shared termination flag and wall-clock reads are
modelled as oracle inputs (`Env`): the n-th judgement result, the n-th
decomposition result, and the value of the shared `shouldTerminate` flag
at its n-th read.  JavaScript platform string primitives
(`String.prototype.split`, `startsWith`, `substring`) are modelled by
char-list functions with the same semantics.  `Math.round(p/t*100)` on
floats is modelled by exact rational rounding `⌊(200 p + t) / (2 t)⌋`.
-/

namespace Fissio

/-! ## JS string primitives -/

/-- `s.split(sep)` of JavaScript: splits at every occurrence of the
separator, keeping empty pieces (so `"a\n\n".split("\n") = ["a","",""]`). -/
def splitListChar (sep : Char) : List Char → List (List Char)
  | [] => [[]]
  | c :: cs =>
    if c = sep then [] :: splitListChar sep cs
    else
      match splitListChar sep cs with
      | [] => [[c]]
      | g :: gs => (c :: g) :: gs

def jsSplit (sep : Char) (s : String) : List String :=
  (splitListChar sep s.data).map List.asString

/-- `s.startsWith(p)` of JavaScript. -/
def jsStartsWith (s p : String) : Bool :=
  p.data.isPrefixOf s.data

/-- `s.substring(n)` of JavaScript (drop the first `n` units). -/
def jsSubstringFrom (s : String) (n : Nat) : String :=
  ⟨s.data.drop n⟩

/-- `Math.round(p / t * 100)` for natural `p`, `t`, computed as the exact
rational rounding `⌊100·p/t + 1/2⌋ = (200·p + t) / (2·t)`. -/
def jsRoundPct (p t : Nat) : Nat :=
  (200 * p + t) / (2 * t)

/-! ## Tree model (src/types) -/

inductive Status where
  | pending
  | processing
  | completed
  | need_decomposition
  | can_answer
deriving DecidableEq, Repr

inductive DecomposeMode where
  | task
  | concept
deriving DecidableEq, Repr

/-- `TreeNode` of `src/types`: `children` is nullable (JS `null` vs `[]`
both occur and behave differently at the `if (newRootTree.children)`
check, so the `Option` is kept).  `status` and `isLeaf` are optional in
the TS type but are set by every constructor site the engine uses. -/
inductive TreeNode where
  | mk (id : String) (content : String) (children : Option (List TreeNode))
      (expanded : Bool) (status : Status) (isLeaf : Bool)
      (canDirectlyAnswer : Option Bool)

def TreeNode.id : TreeNode → String
  | .mk i _ _ _ _ _ _ => i

def TreeNode.content : TreeNode → String
  | .mk _ c _ _ _ _ _ => c

def TreeNode.children : TreeNode → Option (List TreeNode)
  | .mk _ _ cs _ _ _ _ => cs

def TreeNode.expanded : TreeNode → Bool
  | .mk _ _ _ e _ _ _ => e

def TreeNode.status : TreeNode → Status
  | .mk _ _ _ _ s _ _ => s

def TreeNode.isLeaf : TreeNode → Bool
  | .mk _ _ _ _ _ l _ => l

def TreeNode.canDirectlyAnswer : TreeNode → Option Bool
  | .mk _ _ _ _ _ _ a => a

/-- `{...node, expanded: true}` (the `newNode.expanded = true` and
`currentTree.expanded = true` mutations). -/
def TreeNode.setExpanded : TreeNode → Bool → TreeNode
  | .mk i c cs _ s l a, e => .mk i c cs e s l a

/-- `AITreeNode` of `src/types`: the shape returned by the expansion
service (`label` optional, `children` nullable). -/
inductive AITreeNode where
  | mk (id : String) (label : Option String) (content : String)
      (children : Option (List AITreeNode))

def AITreeNode.id : AITreeNode → String
  | .mk i _ _ _ => i

/-! ## Tree traversals (WorkflowController private helpers) -/

mutual
/-- `getAllNodeIds` (ai-agent): the collected ids, in the preorder the
`collectIds` recursion visits them.  The source stores them in a `Set`;
the list retains multiplicity so uniqueness is expressible. -/
def getAllNodeIds : TreeNode → List String
  | .mk i _ none _ _ _ _ => [i]
  | .mk i _ (some cs) _ _ _ _ => i :: getAllNodeIdsForest cs

def getAllNodeIdsForest : List TreeNode → List String
  | [] => []
  | t :: ts => getAllNodeIds t ++ getAllNodeIdsForest ts
end

mutual
/-- `getAllNodes` (ai-agent). -/
def getAllNodes : TreeNode → List TreeNode
  | .mk i c none e s l a => [.mk i c none e s l a]
  | .mk i c (some cs) e s l a => .mk i c (some cs) e s l a :: getAllNodesForest cs

def getAllNodesForest : List TreeNode → List TreeNode
  | [] => []
  | t :: ts => getAllNodes t ++ getAllNodesForest ts
end

mutual
/-- `getLeafNodes` (ai-agent): nodes whose `children` is null or empty. -/
def getLeafNodes : TreeNode → List TreeNode
  | .mk i c none e s l a => [.mk i c none e s l a]
  | .mk i c (some []) e s l a => [.mk i c (some []) e s l a]
  | .mk _ _ (some (t :: ts)) _ _ _ _ => getLeafNodesForest (t :: ts)

def getLeafNodesForest : List TreeNode → List TreeNode
  | [] => []
  | t :: ts => getLeafNodes t ++ getLeafNodesForest ts
end

mutual
/-- `updateNodeInTree` (ai-agent), at the only update the engine uses:
`{status, canDirectlyAnswer}`.  A matched node is returned with the two
fields overridden and its children untouched (the source does not recurse
into a matched node). -/
def updateNodeInTree (t : TreeNode) (nodeId : String) (st : Status)
    (cda : Bool) : TreeNode :=
  match t with
  | .mk i c cs e s l a =>
    if i = nodeId then .mk i c cs e st l (some cda)
    else
      match cs with
      | none => .mk i c none e s l a
      | some children =>
        .mk i c (some (updateForest children nodeId st cda)) e s l a

def updateForest (ts : List TreeNode) (nodeId : String) (st : Status)
    (cda : Bool) : List TreeNode :=
  match ts with
  | [] => []
  | t :: ts => updateNodeInTree t nodeId st cda :: updateForest ts nodeId st cda
end

mutual
/-- `replaceNodeInTree` (ai-agent): a matched node is replaced wholesale
by `newNode` (no recursion into the match). -/
def replaceNodeInTree (t : TreeNode) (nodeId : String) (newNode : TreeNode) :
    TreeNode :=
  match t with
  | .mk i c cs e s l a =>
    if i = nodeId then newNode
    else
      match cs with
      | none => .mk i c none e s l a
      | some children =>
        .mk i c (some (replaceForest children nodeId newNode)) e s l a

def replaceForest (ts : List TreeNode) (nodeId : String) (newNode : TreeNode) :
    List TreeNode :=
  match ts with
  | [] => []
  | t :: ts => replaceNodeInTree t nodeId newNode :: replaceForest ts nodeId newNode
end

mutual
/-- `convertToTreeNode` (ai-agent): `content || label || ''`, children
mapped with the same status, `isLeaf` iff children null or empty. -/
def convertToTreeNode (ai : AITreeNode) (st : Status) : TreeNode :=
  match ai with
  | .mk i lab c cs =>
    let content := if c ≠ "" then c else (lab.getD "")
    match cs with
    | none => .mk i content none false st true none
    | some children =>
      .mk i content (some (convertForest children st)) false st
        (children.isEmpty) none

def convertForest (ts : List AITreeNode) (st : Status) : List TreeNode :=
  match ts with
  | [] => []
  | t :: ts => convertToTreeNode t st :: convertForest ts st
end

/-! ## Merge & identity allocation (`ensureUniqueIds`) -/

/-- One candidate of the `while (allExistingIds.has(newId))` loop:
`` `${prefix}-${counter}` ``. -/
def candidateId (pre : String) (c : Nat) : String :=
  pre ++ "-" ++ Nat.repr c

/-- The collision loop of `ensureUniqueIds`: starting at counter `c`,
return the first candidate not in `used`.  The source loop is unbounded;
`used.length + 1` steps are proved sufficient
(`freshFrom_not_mem_of_exists` / `exists_candidate_not_mem`). -/
def freshFrom (used : List String) (pre : String) : Nat → Nat → String
  | 0, c => candidateId pre c
  | fuel + 1, c =>
    let cand := candidateId pre c
    if cand ∈ used then freshFrom used pre fuel (c + 1) else cand

/-- Id chosen for one node: the base prefix itself if free, else the
first free `` `${prefix}-${counter}` `` with counter 1, 2, …. -/
def freshId (used : List String) (pre : String) : String :=
  if pre ∈ used then freshFrom used pre (used.length + 1) 1 else pre

mutual
/-- The inner `assignUniqueId` of `ensureUniqueIds`: allocates an id for
the node (adding it to the set before descending), then recurses into the
children with base `` `${newId}-${index+1}` ``.  The evolving
`allExistingIds` set is threaded as a list. -/
def assignUniqueId (t : TreeNode) (pre : String) (used : List String) :
    TreeNode × List String :=
  match t with
  | .mk _ c cs e s l a =>
    let newId := freshId used pre
    match cs with
    | none => (.mk newId c none e s l a, newId :: used)
    | some children =>
      let r := assignChildren children newId 1 (newId :: used)
      (.mk newId c (some r.1) e s l a, r.2)

def assignChildren (ts : List TreeNode) (parentId : String) (idx : Nat)
    (used : List String) : List TreeNode × List String :=
  match ts with
  | [] => ([], used)
  | t :: ts =>
    let r1 := assignUniqueId t (candidateId parentId idx) used
    let r2 := assignChildren ts parentId (idx + 1) r1.2
    (r1.1 :: r2.1, r2.2)
end

/-- `ensureUniqueIds(node, existingTree, baseId)` (ai-agent). -/
def ensureUniqueIds (node : TreeNode) (existingTree : TreeNode)
    (baseId : String) : TreeNode :=
  (assignUniqueId node baseId (getAllNodeIds existingTree)).1

/-! ## Workflow state and events -/

structure WorkflowState where
  currentTree : TreeNode
  pendingNodes : List TreeNode
  completedNodes : List TreeNode
  totalNodes : Nat
  processedNodes : Nat
  isComplete : Bool

/-- `createWorkflowState` (ai-agent). -/
def createWorkflowState (tree : TreeNode) : WorkflowState :=
  let allNodes := getAllNodes tree
  let pendingNodes := allNodes.filter fun n =>
    n.status == Status.pending || n.status == Status.need_decomposition
  let completedNodes := allNodes.filter fun n =>
    n.status == Status.completed || n.status == Status.can_answer
  { currentTree := tree
    pendingNodes := pendingNodes
    completedNodes := completedNodes
    totalNodes := allNodes.length
    processedNodes := completedNodes.length
    isComplete := pendingNodes.isEmpty }

/-- `WorkflowEvent` of `src/types`. -/
inductive WEvent where
  | start (message : String) (state : WorkflowState)
  | decompose_node (nodeId : String) (message : String) (state : WorkflowState)
  | judge_node (nodeId : String) (result : Bool) (message : String)
      (state : WorkflowState)
  | update_tree (tree : TreeNode) (message : String) (state : WorkflowState)
  | progress (progress : Nat) (message : String) (state : WorkflowState)
  | complete (finalTree : TreeNode) (message : String) (state : WorkflowState)
  | terminated (finalTree : TreeNode) (message : String) (state : WorkflowState)
  | error (error : String)

/-- Judgement result (`JudgementResponse`); confidence is a rational in
[0,1], never branched on by the engine. -/
structure Judgement where
  canDirectlyAnswer : Bool
  reasoning : String
  confidence : Rat

/-- Oracle for one `executeWorkflow` run: results of the n-th judgement
call and n-th decomposition call (of which the controller reads only the
`root` field), and the value of the shared `shouldTerminate` flag at its
n-th read after the session's initial reset.  `Except.error` models a
thrown exception. -/
structure Env where
  judge : Nat → Except String Judgement
  decomp : Nat → Except String AITreeNode
  flag : Nat → Bool

/-! ## The orchestrator (`executeWorkflow`) -/

/-- Index state while iterating: next judge call, next decompose call,
next flag read. -/
structure Counters where
  j : Nat
  d : Nat
  f : Nat
deriving Repr

def progressMessage (s : WorkflowState) : String :=
  "处理进度: " ++ Nat.repr s.processedNodes ++ "/" ++ Nat.repr s.totalNodes

def judgePreMessage (c : String) : String :=
  "正在判断节点\"" ++ c ++ "\"..."

def judgeYesMessage (c : String) : String :=
  "节点\"" ++ c ++ "\"可以直接回答"

def decomposeNodeMessage (c : String) : String :=
  "正在分解节点\"" ++ c ++ "\"..."

def nodeDoneMessage (c : String) : String :=
  "节点\"" ++ c ++ "\"分解完成"

def nodeFailMessage (c : String) : String :=
  "节点\"" ++ c ++ "\"分解失败，标记为可直接回答"

/-- Events of one pending-leaf iteration (lines 417–505 of the
controller), distilled to a pure function.  Returns the emitted events
and either the updated tree and counters, or `none` when the session
halted inside the iteration (flag observed, or a judgement call threw —
the outer `catch` then yields `error`). -/
def processLeaves (env : Env) : List TreeNode → TreeNode → Counters →
    List WEvent × Option (TreeNode × Counters)
  | [], tree, cnt => ([], some (tree, cnt))
  | leaf :: rest, tree, cnt =>
    if env.flag cnt.f then
      ([.terminated tree "分解过程已终止，保留当前结果" (createWorkflowState tree)],
        none)
    else
      let cnt := { cnt with f := cnt.f + 1 }
      let preEv := WEvent.judge_node leaf.id false (judgePreMessage leaf.content)
        (createWorkflowState tree)
      match env.judge cnt.j with
      | .error e => ([preEv, .error e], none)
      | .ok jd =>
        let cnt := { cnt with j := cnt.j + 1 }
        if jd.canDirectlyAnswer then
          let tree' := updateNodeInTree tree leaf.id Status.can_answer true
          let yesEv := WEvent.judge_node leaf.id true (judgeYesMessage leaf.content)
            (createWorkflowState tree')
          let st := createWorkflowState tree'
          let progEv := WEvent.progress (jsRoundPct st.processedNodes st.totalNodes)
            (progressMessage st) st
          let r := processLeaves env rest tree' cnt
          (preEv :: yesEv :: progEv :: r.1, r.2)
        else
          let decEv := WEvent.decompose_node leaf.id (decomposeNodeMessage leaf.content)
            (createWorkflowState tree)
          match env.decomp cnt.d with
          | .ok ai =>
            let cnt := { cnt with d := cnt.d + 1 }
            let newNode := ensureUniqueIds (convertToTreeNode ai Status.pending)
              tree leaf.id
            let newNode := newNode.setExpanded true
            let tree' := replaceNodeInTree tree leaf.id newNode
            let updEv := WEvent.update_tree tree' (nodeDoneMessage leaf.content)
              (createWorkflowState tree')
            let st := createWorkflowState tree'
            let progEv := WEvent.progress (jsRoundPct st.processedNodes st.totalNodes)
              (progressMessage st) st
            let r := processLeaves env rest tree' cnt
            (preEv :: decEv :: updEv :: progEv :: r.1, r.2)
          | .error _ =>
            let cnt := { cnt with d := cnt.d + 1 }
            let tree' := updateNodeInTree tree leaf.id Status.can_answer true
            let failEv := WEvent.judge_node leaf.id true (nodeFailMessage leaf.content)
              (createWorkflowState tree')
            let st := createWorkflowState tree'
            let progEv := WEvent.progress (jsRoundPct st.processedNodes st.totalNodes)
              (progressMessage st) st
            let r := processLeaves env rest tree' cnt
            (preEv :: decEv :: failEv :: progEv :: r.1, r.2)

/-- The `while (iterationCount < maxIterations)` loop (lines 396–508).
`fuel` is `maxIterations - iterationCount`.  When fuel is exhausted, or
no pending leaf remains, the final `complete` event is emitted. -/
def passLoop (env : Env) : Nat → TreeNode → Counters → List WEvent
  | 0, tree, _ =>
    [.complete tree "任务分解完成！" (createWorkflowState tree)]
  | fuel + 1, tree, cnt =>
    if env.flag cnt.f then
      [.terminated tree "分解过程已终止，保留当前结果" (createWorkflowState tree)]
    else
      let cnt := { cnt with f := cnt.f + 1 }
      let pendingLeafNodes := (getLeafNodes tree).filter fun n =>
        n.status == Status.pending && n.isLeaf
      if pendingLeafNodes.isEmpty then
        [.complete tree "任务分解完成！" (createWorkflowState tree)]
      else
        let r := processLeaves env pendingLeafNodes tree cnt
        match r.2 with
        | none => r.1
        | some tc => r.1 ++ passLoop env fuel tc.1 tc.2

/-- `root-${index + 1}` bases for the children of the initial
decomposition, each checked against the **old** single-node tree as in the
source. -/
def rootExpandChildren (oldTree : TreeNode) : List TreeNode → Nat → List TreeNode
  | [], _ => []
  | c :: cs, idx =>
    ensureUniqueIds c oldTree (candidateId "root" (idx + 1)) ::
      rootExpandChildren oldTree cs (idx + 1)

def maxIterations : Nat := 10

def startMessage (mode : DecomposeMode) : String :=
  "开始分析任务（" ++
    (match mode with
      | .task => "任务模式"
      | .concept => "概念模式") ++ "）..."

/-- The single-node tree a session starts from. -/
def initialTree (inputText : String) : TreeNode :=
  .mk "root" inputText none false Status.pending true none

/-- The tree after the initial decomposition (lines 369–383):
`if (newRootTree.children)` — only with (possibly empty) children is the
id forced back to `'root'` and each child re-allocated against the old
tree; a childless result keeps the AI id.  Then `expanded = true`. -/
def rootTree1 (inputText : String) (aiRoot : AITreeNode) : TreeNode :=
  match convertToTreeNode aiRoot Status.pending with
  | .mk i c none e s l a => TreeNode.mk i c none e s l a |>.setExpanded true
  | .mk _ c (some cs) e s l a =>
    TreeNode.mk "root" c
        (some (rootExpandChildren (initialTree inputText) cs 0)) e s l a
      |>.setExpanded true

/-- `executeWorkflow(inputText, mode)` (lines 328–525), as the full list
of yielded events.  `initFlag` is the value of the shared
`shouldTerminate` flag when the call starts; the first statement of the
source resets it, after which reads are served by `env.flag`. -/
def executeWorkflow (env : Env) (initFlag : Bool) (inputText : String)
    (mode : DecomposeMode) : List WEvent :=
  -- resetTerminationFlag(): the incoming flag value is overwritten before
  -- anything else happens, so `initFlag` is dead from here on.
  let _ := initFlag
  let currentTree : TreeNode := initialTree inputText
  let startEv := WEvent.start (startMessage mode) (createWorkflowState currentTree)
  let rootDecEv := WEvent.decompose_node "root" "正在分解根任务..."
    (createWorkflowState currentTree)
  if env.flag 0 then
    [startEv, rootDecEv,
      .terminated currentTree "分解过程已终止" (createWorkflowState currentTree)]
  else
    match env.decomp 0 with
    | .error e => [startEv, rootDecEv, .error e]
    | .ok aiRoot =>
      let tree1 := rootTree1 inputText aiRoot
      let updEv := WEvent.update_tree tree1 "根任务分解完成" (createWorkflowState tree1)
      [startEv, rootDecEv, updEv] ++
        passLoop env maxIterations tree1 ⟨0, 1, 1⟩

/-! ## Stream encoder / transport (decompose-stream/route.ts) -/

/-- The `streamData` objects built by the `switch (event.type)` of the
route handler (one JSON object per frame). -/
inductive Frame where
  | start (message : String) (progress : Nat) (mode : DecomposeMode)
  | progress (message : String) (progress : Nat)
  | progressJudge (message : String) (nodeId : String)
      (judgementResult : Bool) (progress : Nat)
  | update (treeData : TreeNode) (message : String) (progress : Nat)
  | complete (treeData : TreeNode) (message : String) (progress : Nat)
      (state : WorkflowState)
  | terminated (treeData : TreeNode) (message : String) (progress : Nat)
      (state : WorkflowState)
  | error (error : String)

/-- The per-event `streamData` construction (route.ts lines 71–145). -/
def encodeEvent (mode : DecomposeMode) : WEvent → Frame
  | .start m _ => .start m 0 mode
  | .decompose_node _ m st =>
    .progress m (jsRoundPct st.processedNodes st.totalNodes)
  | .judge_node nid r m st =>
    .progressJudge m nid r (jsRoundPct st.processedNodes st.totalNodes)
  | .update_tree t m st =>
    .update t m (jsRoundPct st.processedNodes st.totalNodes)
  | .progress p m _ => .progress m p
  | .complete t m st => .complete t m 100 st
  | .terminated t m st =>
    .terminated t m (jsRoundPct st.processedNodes st.totalNodes) st
  | .error e => .error e

/-- Whether an event terminates the stream (route.ts line 151). -/
def isTerminal : WEvent → Bool
  | .complete _ _ _ => true
  | .terminated _ _ _ => true
  | .error _ => true
  | _ => false

/-- The transport loop (route.ts lines 62–158): enqueue one frame per
event; after a terminal event `safeClose()` and stop; if the generator
ends without a terminal event, close anyway.  Returns the frames written
and whether the channel was closed. -/
def transportRun (mode : DecomposeMode) : List WEvent → List Frame × Bool
  | [] => ([], true)
  | e :: rest =>
    if isTerminal e then ([encodeEvent mode e], true)
    else
      let r := transportRun mode rest
      (encodeEvent mode e :: r.1, r.2)

/-! ## Session consumer (useFlowStore.ts) -/

/-- The fields of a parsed stream frame that `startStreamDecomposition`
reads (`data.type`, `data.treeData`, `data.progress`, `data.message`,
`data.error`); absent fields are `none`. -/
structure StreamData where
  type : String
  treeData : Option TreeNode
  progress : Option Nat
  message : Option String
  error : Option String

/-- The slice of the zustand store touched by the streaming handlers.
`nodes`/`edges` hold the output of `convertTreeToFlowData` (an external
layout function, kept abstract as the type parameter `Flow`);
`currentAbortController` is modelled by whether one is present. -/
structure Store (Flow : Type) where
  treeData : Option TreeNode
  flow : Flow
  isDecomposing : Bool
  decomposingProgress : Nat
  decomposingMessage : String
  hasAbortController : Bool
  isNewDecomposition : Bool

/-- JavaScript `a || b` for an optional number: `0` and absence are
falsy. -/
def jsOrNat (v : Option Nat) (fallback : Nat) : Nat :=
  match v with
  | some p => if p = 0 then fallback else p
  | none => fallback

/-- JavaScript `a || b` for an optional string: `""` and absence are
falsy. -/
def jsOrStr (v : Option String) (fallback : String) : String :=
  match v with
  | some m => if m = "" then fallback else m
  | none => fallback

/-- The `switch` on `data.type` of `startStreamDecomposition`
(useFlowStore.ts lines 120–203): the store mutation applied for one
successfully parsed frame.  `conv` is `convertTreeToFlowData`. -/
def applyStreamData {Flow : Type} (conv : Option TreeNode → Flow)
    (st : Store Flow) (d : StreamData) : Store Flow :=
  if d.type = "update" then
    match d.treeData with
    | some t =>
      { st with
        treeData := some t
        flow := conv (some t)
        decomposingProgress := jsOrNat d.progress st.decomposingProgress
        decomposingMessage := jsOrStr d.message st.decomposingMessage
        isNewDecomposition := false }
    | none => st
  else if d.type = "progress" then
    { st with
      decomposingProgress := jsOrNat d.progress st.decomposingProgress
      decomposingMessage := jsOrStr d.message st.decomposingMessage }
  else if d.type = "complete" then
    match d.treeData with
    | some t =>
      { st with
        treeData := some t
        flow := conv (some t)
        isDecomposing := false
        decomposingProgress := 100
        decomposingMessage := jsOrStr d.message "分解完成"
        hasAbortController := false
        isNewDecomposition := false }
    | none =>
      { st with
        isDecomposing := false
        decomposingProgress := 100
        decomposingMessage := jsOrStr d.message "分解完成"
        hasAbortController := false
        isNewDecomposition := false }
  else if d.type = "terminated" then
    match d.treeData with
    | some t =>
      { st with
        treeData := some t
        flow := conv (some t)
        isDecomposing := false
        decomposingMessage := jsOrStr d.message "分解已终止"
        hasAbortController := false
        isNewDecomposition := true }
    | none =>
      { st with
        isDecomposing := false
        decomposingMessage := jsOrStr d.message "分解已终止"
        hasAbortController := false
        isNewDecomposition := true }
  else if d.type = "error" then
    { st with
      isDecomposing := false
      decomposingProgress := 0
      decomposingMessage := jsOrStr d.error "分解过程中发生错误"
      hasAbortController := false
      isNewDecomposition := true }
  else st

/-- Processing of one line of a received chunk (lines 114–207): only
`data: `-prefixed lines are considered; `JSON.parse` (modelled by the
`parse` parameter) failing is caught and the line skipped with the store
untouched. -/
def applyLine {Flow : Type} (parse : String → Option StreamData)
    (conv : Option TreeNode → Flow) (st : Store Flow) (line : String) :
    Store Flow :=
  if jsStartsWith line "data: " then
    match parse (jsSubstringFrom line 6) with
    | some d => applyStreamData conv st d
    | none => st
  else st

/-- One network read: `chunk.split('\n')` then per-line processing. -/
def applyChunk {Flow : Type} (parse : String → Option StreamData)
    (conv : Option TreeNode → Flow) (st : Store Flow) (chunk : String) :
    Store Flow :=
  (jsSplit '\n' chunk).foldl (applyLine parse conv) st

/-- The whole read loop over the successive chunks delivered by the
network. -/
def applyChunks {Flow : Type} (parse : String → Option StreamData)
    (conv : Option TreeNode → Flow) (st : Store Flow)
    (chunks : List String) : Store Flow :=
  chunks.foldl (applyChunk parse conv) st

/-- The parsed events one line yields (for counting the frames the
consumer actually decodes and applies). -/
def extractEventsLine (parse : String → Option StreamData) (line : String) :
    List StreamData :=
  if jsStartsWith line "data: " then
    match parse (jsSubstringFrom line 6) with
    | some d => [d]
    | none => []
  else []

def extractEvents (parse : String → Option StreamData)
    (chunks : List String) : List StreamData :=
  chunks.flatMap fun chunk =>
    (jsSplit '\n' chunk).flatMap (extractEventsLine parse)

/-! ## Node-scoped re-decomposition (useFlowStore.ts lines 490–572) -/

mutual
/-- `remapChildIds`: prefix every id in the returned subtree with
`` `${nodeId}__${Date.now()}__` ``. -/
def remapChildIds (pre : String) : TreeNode → TreeNode
  | .mk i c none e s l a => .mk (pre ++ i) c none e s l a
  | .mk i c (some cs) e s l a => .mk (pre ++ i) c (some (remapForest pre cs)) e s l a

def remapForest (pre : String) : List TreeNode → List TreeNode
  | [] => []
  | t :: ts => remapChildIds pre t :: remapForest pre ts
end

mutual
/-- `replaceNodeSubtree`: give the target node the freshly mapped
children (wholesale replacement of its child list). -/
def replaceNodeSubtree (nodeId : String) (mapped : List TreeNode) :
    TreeNode → TreeNode
  | .mk i c cs e s l a =>
    if i = nodeId then .mk i c (some mapped) e s l a
    else
      match cs with
      | none => .mk i c none e s l a
      | some children =>
        .mk i c (some (replaceSubtreeForest nodeId mapped children)) e s l a

def replaceSubtreeForest (nodeId : String) (mapped : List TreeNode) :
    List TreeNode → List TreeNode
  | [] => []
  | t :: ts =>
    replaceNodeSubtree nodeId mapped t :: replaceSubtreeForest nodeId mapped ts
end

/-- The prefix `` `${nodeId}__${Date.now()}__` `` computed at one
`update`/`complete` frame; `now` is the wall-clock value at that frame. -/
def subtreeIdPrefix (nodeId : String) (now : Nat) : String :=
  nodeId ++ "__" ++ Nat.repr now ++ "__"

/-- One `update`/`complete` graft of `redecomposeFromNode`: remap the
returned subtree's children (`data.treeData.children || []`) and replace
the target node's child list in the latest tree snapshot. -/
def redecomposeGraft (tree : TreeNode) (nodeId : String) (now : Nat)
    (dataTree : TreeNode) : TreeNode :=
  let pre := subtreeIdPrefix nodeId now
  let mapped := remapForest pre (dataTree.children.getD [])
  replaceNodeSubtree nodeId mapped tree

/-! ## Trace inspectors -/

def terminalCount (evs : List WEvent) : Nat :=
  (evs.filter isTerminal).length

def isTerminatedEv : WEvent → Bool
  | .terminated _ _ _ => true
  | _ => false

def isErrorEv : WEvent → Bool
  | .error _ => true
  | _ => false

def isDecomposeNodeFor (nid : String) : WEvent → Bool
  | .decompose_node n _ _ => n = nid
  | _ => false

/-- The `progress` values carried by `progress` events, in order. -/
def progressValues : List WEvent → List Nat
  | [] => []
  | .progress p _ _ :: rest => p :: progressValues rest
  | _ :: rest => progressValues rest

/-- The `processedNodes` carried by `progress` events, in order. -/
def progressProcessed : List WEvent → List Nat
  | [] => []
  | .progress _ _ st :: rest => st.processedNodes :: progressProcessed rest
  | _ :: rest => progressProcessed rest

def nonDecreasing : List Nat → Bool
  | [] => true
  | [_] => true
  | a :: b :: rest => a ≤ b && nonDecreasing (b :: rest)

/-- All trees observable in an event: the tree carried by the state plus
any tree payload. -/
def eventTrees : WEvent → List TreeNode
  | .start _ st => [st.currentTree]
  | .decompose_node _ _ st => [st.currentTree]
  | .judge_node _ _ _ st => [st.currentTree]
  | .update_tree t _ st => [t, st.currentTree]
  | .progress _ _ st => [st.currentTree]
  | .complete t _ st => [t, st.currentTree]
  | .terminated t _ st => [t, st.currentTree]
  | .error _ => []

/-- Status and judgement flag of the node with the given id (first match
in preorder), for checking final trees in scenarios. -/
def statusOfId (t : TreeNode) (nid : String) : Option (Status × Option Bool) :=
  ((getAllNodes t).filter (fun n => n.id == nid)).head?.map fun n =>
    (n.status, n.canDirectlyAnswer)

/-! ## Decimal representation facts

The id allocator builds candidate ids with `` `${prefix}-${counter}` ``;
uniqueness of the allocation rests on decimal numerals being pairwise
distinct digit strings.  `Nat.repr` is analysed through a fuel-free
recursion `digitsSpec`. -/

def digitsSpec (n : Nat) : List Char :=
  if n < 10 then [Nat.digitChar n]
  else digitsSpec (n / 10) ++ [Nat.digitChar (n % 10)]
decreasing_by exact Nat.div_lt_self (by omega) (by omega)

def decodeDigits (l : List Char) : Nat :=
  l.foldl (fun a c => 10 * a + (c.toNat - 48)) 0

/-! ## The id family of a base prefix

Every id allocated from base `b` is `b` followed by zero or more
`-‹counter›` groups.  Families of sibling bases `` `root-${i+1}` `` are
pairwise disjoint, which is what makes the per-child allocation of the
initial expansion collision-free. -/

inductive IdExt (b : String) : String → Prop where
  | base : IdExt b b
  | step (s : String) (k : Nat) : IdExt b s → IdExt b (candidateId s k)

/-- Whether a node is childless (null or empty child list): the leaf
criterion of `getLeafNodes`. -/
def TreeNode.childlessB : TreeNode → Bool
  | .mk _ _ none _ _ _ _ => true
  | .mk _ _ (some []) _ _ _ _ => true
  | .mk _ _ (some (_ :: _)) _ _ _ _ => false

/-- Ids and childlessness of every node: the projection of the tree that
`replaceNodeInTree` and `updateNodeInTree` reasoning needs. -/
def shapeList (t : TreeNode) : List (String × Bool) :=
  (getAllNodes t).map fun n => (n.id, n.childlessB)

def shapeForest (ts : List TreeNode) : List (String × Bool) :=
  (getAllNodesForest ts).map fun n => (n.id, n.childlessB)

/-- Ids and statuses of every node. -/
def statusList (t : TreeNode) : List (String × Status) :=
  (getAllNodes t).map fun n => (n.id, n.status)

def statusForest (ts : List TreeNode) : List (String × Status) :=
  (getAllNodesForest ts).map fun n => (n.id, n.status)

/-- All ids of the node with id `x` being childless in `t`. -/
def childlessAt (t : TreeNode) (x : String) : Prop :=
  ∀ p ∈ shapeList t, p.1 = x → p.2 = true

/-- All nodes with id `x` in `t` having status `s`. -/
def statusAt (t : TreeNode) (x : String) (s : Status) : Prop :=
  ∀ p ∈ statusList t, p.1 = x → p.2 = s

/-! ## Inline id substitution -/

/-- Replace every occurrence of `x` in the id list by the block `repl`:
the id-level effect of `replaceNodeInTree` at a childless node. -/
def substList (x : String) (repl : List String) : List String → List String
  | [] => []
  | y :: ys => (if y = x then repl else [y]) ++ substList x repl ys

/-! ## Node counts -/

def totalCount (t : TreeNode) : Nat := (getAllNodes t).length

def isDoneB (s : Status) : Bool :=
  s == Status.completed || s == Status.can_answer

def processedCount (t : TreeNode) : Nat :=
  ((getAllNodes t).filter fun n => isDoneB n.status).length

def processedForestCount (ts : List TreeNode) : Nat :=
  ((getAllNodesForest ts).filter fun n => isDoneB n.status).length

def totalForestCount (ts : List TreeNode) : Nat :=
  (getAllNodesForest ts).length

/-! ## The session invariant and id uniqueness -/

/-- Invariant carried while a pending-leaf snapshot is iterated: ids of
the current tree are duplicate-free, each remaining snapshot entry is
still present in the tree and childless there, and the snapshot ids are
pairwise distinct. -/
structure LoopInv (tree : TreeNode) (leaves : List TreeNode) : Prop where
  nodup : (getAllNodeIds tree).Nodup
  mem : ∀ l ∈ leaves, l.id ∈ getAllNodeIds tree
  childless : ∀ l ∈ leaves, childlessAt tree l.id
  distinct : (leaves.map TreeNode.id).Nodup

/-! ## Equation lemmas for `passLoop` -/

/-- The pending-leaf snapshot taken at the top of a pass. -/
def pendingSnapshot (tree : TreeNode) : List TreeNode :=
  (getLeafNodes tree).filter fun n => n.status == Status.pending && n.isLeaf

/-! ## Terminal-event structure -/

/-- The sequence ends with a terminal event and contains no other
terminal event. -/
def TerminalLast (l : List WEvent) : Prop :=
  ∃ pre e, l = pre ++ [e] ∧ isTerminal e = true ∧ ∀ x ∈ pre, isTerminal x = false

/-- Frames are written for events up to and including the first terminal
one, and for nothing after it. -/
def takeUntilTerminal : List WEvent → List WEvent
  | [] => []
  | e :: rest => if isTerminal e then [e] else e :: takeUntilTerminal rest

/-! ## The shared flag as last-writer-wins state -/

/-- A write to the process-wide `shouldTerminate` flag: a
`terminate-decomposition` request sets it, `resetTerminationFlag` at a
session start clears it. -/
inductive FlagOp where
  | terminate
  | reset

def flagAfter : Bool → List FlagOp → Bool
  | b, [] => b
  | _, .terminate :: ops => flagAfter true ops
  | _, .reset :: ops => flagAfter false ops

/-! ## Progress sequence in expansion-free sessions -/

def progSeq (n : Nat) : Nat → Nat → List Nat
  | _, 0 => []
  | p, m + 1 => jsRoundPct (p + 1) n :: progSeq n (p + 1) m

/-! ## Concrete scenario environments -/

def judgeYesR : Judgement := ⟨true, "ok", (82 : Rat) / 100⟩

def judgeNoR : Judgement := ⟨false, "no", (1 : Rat) / 2⟩

def aiLeaf (i c : String) : AITreeNode := .mk i none c none

/-- Root decomposition result with two leaf children. -/
def aiRoot2 : AITreeNode :=
  .mk "t" none "T" (some [aiLeaf "a" "A", aiLeaf "b" "B"])

/-- Node decomposition result with two leaf children. -/
def aiSub2 : AITreeNode :=
  .mk "s" none "S" (some [aiLeaf "c" "C", aiLeaf "d" "D"])

/-- Every judgement true, no failure, no termination request. -/
def envAllTrue : Env :=
  ⟨fun _ => .ok judgeYesR, fun _ => .ok aiRoot2, fun _ => false⟩

/-- Second judgement false (so the second leaf is expanded), everything
else true; the expansion succeeds with two children. -/
def envGrow : Env :=
  ⟨fun n => .ok (if n = 1 then judgeNoR else judgeYesR),
    fun n => .ok (if n = 0 then aiRoot2 else aiSub2),
    fun _ => false⟩

/-- A node used in the C6 counterexample tree. -/
def mkLeaf (i : String) : TreeNode := .mk i i none false Status.pending true none

/-- Tree that already contains the id `root-2__5__a` outside the target
node `root-2`. -/
def c6Tree : TreeNode :=
  .mk "root" "R" (some [mkLeaf "root-2", mkLeaf "root-2__5__a"]) false
    Status.pending false none

/-- Re-decomposition payload whose child has original id `a`. -/
def c6Data : TreeNode :=
  .mk "s" "S" (some [mkLeaf "a"]) false Status.completed false none

/-! ## Error-asymmetry scenarios (C5) -/

/-- Root decomposition result with a single leaf child. -/
def aiRoot1 : AITreeNode := .mk "t" none "T" (some [aiLeaf "a" "A"])

/-- The single leaf needs decomposition, and its (non-root) expansion
call fails. -/
def envNodeFail : Env :=
  ⟨fun _ => .ok judgeNoR,
    fun n => if n = 0 then .ok aiRoot1 else .error "expansion boom",
    fun _ => false⟩

/-- Every decomposition call fails — in particular the initial root
expansion. -/
def envRootFail (e : String) : Env :=
  ⟨fun _ => .ok judgeYesR, fun _ => .error e, fun _ => false⟩

/-- The classification call fails. -/
def envJudgeFail (e : String) : Env :=
  ⟨fun _ => .error e, fun _ => .ok aiRoot1, fun _ => false⟩

/-- Status and judgement flag of a node in the final tree, provided the
session's last event is `complete`. -/
def completesWith (l : List WEvent) (nid : String) :
    Option (Status × Option Bool) :=
  match l.getLast? with
  | some (.complete t _ _) => statusOfId t nid
  | _ => none

/-! ## Judged-true scenario (C8) -/

/-- `processedNodes` carried by the states of `judge_node` pre-call
events (result `false`) for the given node id, in order. -/
def judgeStates (nid : String) : List WEvent → List Nat
  | [] => []
  | .judge_node n false _ st :: rest =>
    if n = nid then st.processedNodes :: judgeStates nid rest
    else judgeStates nid rest
  | _ :: rest => judgeStates nid rest

/-- A concrete store value for the C10 witness. -/
def storeW : Store Unit :=
  ⟨none, (), true, 40, "m", true, false⟩

/-! ## Consumer: frames split across reads (C3) -/

/-- The JSON body of the frame used in the split-frame scenario. -/
def frameBody : String := "\x7b\"type\":\"progress\",\"progress\":50\x7d"

/-- `JSON.parse` restricted to the strings of the scenario: the complete
body parses to a progress event; every other string — in particular the
truncated fragment `\x7b"ty` — throws. -/
def tableParse (s : String) : Option StreamData :=
  if s = frameBody then some ⟨"progress", none, some 50, none, none⟩ else none

/-- What claim C1 asserts of one tree: the set of node ids has
cardinality equal to the node count — equivalently, the id list is
duplicate-free. -/
def UniqueIds (t : TreeNode) : Prop :=
  (getAllNodeIds t).Nodup ∧
  (getAllNodeIds t).toFinset.card = (getAllNodes t).length

/-! # Theorems -/

theorem toDigitsCore_eq_digitsSpec (fuel : Nat) :
    ∀ (n : Nat) (ds : List Char), n < fuel →
      Nat.toDigitsCore 10 fuel n ds = digitsSpec n ++ ds := by
  induction fuel with
  | zero => intro n ds h; omega
  | succ f ih =>
    intro n ds h
    by_cases h10 : n / 10 = 0
    · have hn : n < 10 := by omega
      have hmod : n % 10 = n := Nat.mod_eq_of_lt hn
      simp only [Nat.toDigitsCore, h10, if_true]
      rw [digitsSpec, if_pos hn, hmod]
      rfl
    · have hn : ¬ n < 10 := by
        intro hc
        exact h10 (Nat.div_eq_of_lt hc)
      have hlt : n / 10 < f := by
        have h1 : n / 10 < n := Nat.div_lt_self (by omega) (by omega)
        omega
      simp only [Nat.toDigitsCore, h10, if_false]
      rw [ih (n / 10) _ hlt]
      conv_rhs => rw [digitsSpec, if_neg hn]
      simp [List.append_assoc]

theorem repr_eq_digitsSpec (n : Nat) : Nat.repr n = (digitsSpec n).asString := by
  show (Nat.toDigits 10 n).asString = _
  unfold Nat.toDigits
  rw [toDigitsCore_eq_digitsSpec (n + 1) n [] (Nat.lt_succ_self n)]
  simp

theorem digitsSpec_ne_nil (n : Nat) : digitsSpec n ≠ [] := by
  rw [digitsSpec]
  by_cases h : n < 10 <;> simp [h]

/-- The characters of a decimal numeral are decimal digits
(`'0'`–`'9'`, i.e. code points 48–57). -/
theorem digitsSpec_mem_digit (n : Nat) :
    ∀ c ∈ digitsSpec n, 48 ≤ c.toNat ∧ c.toNat ≤ 57 := by
  induction n using Nat.strong_induction_on with
  | _ n ih =>
    intro c hc
    rw [digitsSpec] at hc
    by_cases h : n < 10
    · rw [if_pos h] at hc
      simp at hc
      subst hc
      interval_cases n <;> simp [Nat.digitChar]
    · rw [if_neg h] at hc
      rcases List.mem_append.1 hc with h1 | h1
      · exact ih (n / 10) (Nat.div_lt_self (by omega) (by omega)) c h1
      · simp at h1
        subst h1
        have hm : n % 10 < 10 := Nat.mod_lt _ (by omega)
        interval_cases hmn : (n % 10) <;> simp [hmn, Nat.digitChar]

theorem decode_digitsSpec (n : Nat) : decodeDigits (digitsSpec n) = n := by
  induction n using Nat.strong_induction_on with
  | _ n ih =>
    rw [digitsSpec]
    by_cases h : n < 10
    · rw [if_pos h]
      show 10 * 0 + ((Nat.digitChar n).toNat - 48) = n
      interval_cases n <;> simp [Nat.digitChar]
    · rw [if_neg h]
      unfold decodeDigits
      rw [List.foldl_append]
      have ihd := ih (n / 10) (Nat.div_lt_self (by omega) (by omega))
      unfold decodeDigits at ihd
      rw [ihd]
      show 10 * (n / 10) + ((Nat.digitChar (n % 10)).toNat - 48) = n
      have hm : n % 10 < 10 := Nat.mod_lt _ (by omega)
      have hd : (Nat.digitChar (n % 10)).toNat - 48 = n % 10 := by
        interval_cases hmn : (n % 10) <;> simp [hmn, Nat.digitChar]
      omega

theorem digitsSpec_injective : Function.Injective digitsSpec := by
  intro m n h
  have := congrArg decodeDigits h
  rwa [decode_digitsSpec, decode_digitsSpec] at this

theorem string_data_append (s t : String) : (s ++ t).data = s.data ++ t.data := rfl

theorem string_eq_of_data (s t : String) (h : s.data = t.data) : s = t := by
  cases s
  cases t
  cases h
  rfl

theorem repr_data (n : Nat) : (Nat.repr n).data = digitsSpec n := by
  rw [repr_eq_digitsSpec]
  rfl

theorem repr_injective : Function.Injective Nat.repr := by
  intro m n h
  apply digitsSpec_injective
  rw [← repr_data, ← repr_data, h]

theorem repr_mem_digit (n : Nat) :
    ∀ c ∈ (Nat.repr n).data, 48 ≤ c.toNat ∧ c.toNat ≤ 57 := by
  rw [repr_data]
  exact digitsSpec_mem_digit n

theorem repr_data_ne_nil (n : Nat) : (Nat.repr n).data ≠ [] := by
  rw [repr_data]
  exact digitsSpec_ne_nil n

/-! ## Allocator facts (`freshId`, `assignUniqueId`) -/

theorem candidateId_data (pre : String) (c : Nat) :
    (candidateId pre c).data = pre.data ++ '-' :: (Nat.repr c).data := by
  unfold candidateId
  rw [string_data_append, string_data_append]
  simp

theorem candidateId_injective (pre : String) :
    Function.Injective (candidateId pre) := by
  intro a b h
  have hd := congrArg String.data h
  rw [candidateId_data, candidateId_data] at hd
  have h1 := List.append_cancel_left hd
  simp only [List.cons.injEq, true_and] at h1
  exact repr_injective (string_eq_of_data _ _ h1)

theorem exists_candidate_not_mem (used : List String) (pre : String) (c0 : Nat) :
    ∃ k < used.length + 1, candidateId pre (c0 + k) ∉ used := by
  by_contra hcon
  push_neg at hcon
  set l := (List.range (used.length + 1)).map fun k => candidateId pre (c0 + k) with hl
  have hnd : l.Nodup := by
    refine List.Nodup.map ?_ (List.nodup_range _)
    intro a b hab
    have := candidateId_injective pre hab
    omega
  have hsub : l ⊆ used := by
    intro x hx
    rw [hl] at hx
    rcases List.mem_map.1 hx with ⟨k, hk, rfl⟩
    exact hcon k (List.mem_range.1 hk)
  have hcard : l.toFinset.card = l.length := List.toFinset_card_of_nodup hnd
  have hlen : l.length = used.length + 1 := by simp [hl]
  have hle : l.toFinset ⊆ used.toFinset := by
    intro x hx
    exact List.mem_toFinset.2 (hsub (List.mem_toFinset.1 hx))
  have := Finset.card_le_card hle
  have := used.toFinset_card_le
  omega

theorem freshFrom_not_mem (used : List String) (pre : String) :
    ∀ (fuel c : Nat), (∃ k < fuel, candidateId pre (c + k) ∉ used) →
      freshFrom used pre fuel c ∉ used := by
  intro fuel
  induction fuel with
  | zero =>
    rintro c ⟨k, hk, _⟩
    exact absurd hk (by omega)
  | succ f ih =>
    rintro c ⟨k, hk, hfree⟩
    unfold freshFrom
    by_cases h : candidateId pre c ∈ used
    · rw [if_pos h]
      apply ih
      match k, hk with
      | 0, _ => exact absurd h (by simpa using hfree)
      | k' + 1, hk =>
        exact ⟨k', by omega, by
          have : c + 1 + k' = c + (k' + 1) := by omega
          rw [this]; exact hfree⟩
    · rw [if_neg h]
      exact h

theorem freshId_not_mem (used : List String) (pre : String) :
    freshId used pre ∉ used := by
  unfold freshId
  by_cases h : pre ∈ used
  · rw [if_pos h]
    exact freshFrom_not_mem used pre _ 1 (exists_candidate_not_mem used pre 1)
  · rw [if_neg h]
    exact h

theorem freshFrom_form (used : List String) (pre : String) :
    ∀ (fuel c : Nat), 1 ≤ c →
      ∃ k, 1 ≤ k ∧ freshFrom used pre fuel c = candidateId pre k := by
  intro fuel
  induction fuel with
  | zero => intro c hc; exact ⟨c, hc, rfl⟩
  | succ f ih =>
    intro c hc
    unfold freshFrom
    by_cases h : candidateId pre c ∈ used
    · rw [if_pos h]
      exact ih (c + 1) (by omega)
    · rw [if_neg h]
      exact ⟨c, hc, rfl⟩

theorem freshId_form (used : List String) (pre : String) :
    freshId used pre = pre ∨
      ∃ k, 1 ≤ k ∧ freshId used pre = candidateId pre k := by
  unfold freshId
  by_cases h : pre ∈ used
  · rw [if_pos h]
    exact Or.inr (freshFrom_form used pre _ 1 (le_refl 1))
  · rw [if_neg h]
    exact Or.inl rfl

theorem IdExt.trans {p b s : String} (h1 : IdExt p b) (h2 : IdExt b s) :
    IdExt p s := by
  induction h2 with
  | base => exact h1
  | step s k _ ih => exact IdExt.step s k ih

theorem IdExt_of_freshId (used : List String) (pre : String) :
    IdExt pre (freshId used pre) := by
  rcases freshId_form used pre with h | ⟨k, _, h⟩
  · rw [h]; exact IdExt.base
  · rw [h]; exact IdExt.step pre k IdExt.base

/-- An element of the family is the base itself, or the base followed by
a dash-started suffix. -/
theorem IdExt_structure {b s : String} (h : IdExt b s) :
    s = b ∨ ∃ t, s.data = b.data ++ '-' :: t := by
  induction h with
  | base => exact Or.inl rfl
  | step s k _ ih =>
    right
    rcases ih with rfl | ⟨t, ht⟩
    · exact ⟨(Nat.repr k).data, by rw [candidateId_data]⟩
    · exact ⟨t ++ '-' :: (Nat.repr k).data, by
        rw [candidateId_data, ht]
        simp⟩

/-- Ids extending distinct numbered bases `` `p-${i}` `` and
`` `p-${j}` `` are distinct: the numerals are distinct digit strings, and
any continuation past a numeral starts with `'-'`, which is not a digit. -/
theorem IdExt_disjoint {p : String} {i j : Nat} (hij : i ≠ j) {x : String}
    (hi : IdExt (candidateId p i) x) (hj : IdExt (candidateId p j) x) :
    False := by
  -- extract the two decompositions of x.data
  have di : ∃ u, (u = [] ∨ ∃ v, u = '-' :: v) ∧
      x.data = p.data ++ '-' :: ((Nat.repr i).data ++ u) := by
    rcases IdExt_structure hi with rfl | ⟨t, ht⟩
    · exact ⟨[], Or.inl rfl, by rw [candidateId_data]; simp⟩
    · rw [candidateId_data] at ht
      exact ⟨'-' :: t, Or.inr ⟨t, rfl⟩, by rw [ht]; simp⟩
  have dj : ∃ u, (u = [] ∨ ∃ v, u = '-' :: v) ∧
      x.data = p.data ++ '-' :: ((Nat.repr j).data ++ u) := by
    rcases IdExt_structure hj with rfl | ⟨t, ht⟩
    · exact ⟨[], Or.inl rfl, by rw [candidateId_data]; simp⟩
    · rw [candidateId_data] at ht
      exact ⟨'-' :: t, Or.inr ⟨t, rfl⟩, by rw [ht]; simp⟩
  rcases di with ⟨u1, hu1, hx1⟩
  rcases dj with ⟨u2, hu2, hx2⟩
  rw [hx1] at hx2
  have heq : (Nat.repr i).data ++ u1 = (Nat.repr j).data ++ u2 := by
    have := List.append_cancel_left hx2
    simpa using this
  -- a digit numeral followed by nothing or a dash determines the numeral
  rcases List.append_eq_append_iff.1 heq with ⟨a, ha1, ha2⟩ | ⟨a, ha1, ha2⟩
  · -- (repr j).data = (repr i).data ++ a, u1 = a ++ u2
    match a, ha1, ha2 with
    | [], ha1, _ =>
      have : Nat.repr i = Nat.repr j :=
        string_eq_of_data _ _ (by rw [ha1]; simp)
      exact hij (repr_injective this)
    | c :: a', ha1, ha2 =>
      have hcdig : 48 ≤ c.toNat ∧ c.toNat ≤ 57 := by
        apply repr_mem_digit j
        rw [ha1]
        simp
      rcases hu1 with rfl | ⟨v, rfl⟩
      · exact absurd ha2 (by simp)
      · have : ('-' : Char) = c := by
          have := congrArg (List.head?) ha2
          simpa using this
        have : ('-' : Char).toNat = c.toNat := congrArg Char.toNat this
        simp at this
        omega
  · -- (repr i).data = (repr j).data ++ a, u2 = a ++ u1
    match a, ha1, ha2 with
    | [], ha1, _ =>
      have : Nat.repr i = Nat.repr j :=
        string_eq_of_data _ _ (by rw [ha1]; simp)
      exact hij (repr_injective this)
    | c :: a', ha1, ha2 =>
      have hcdig : 48 ≤ c.toNat ∧ c.toNat ≤ 57 := by
        apply repr_mem_digit i
        rw [ha1]
        simp
      rcases hu2 with rfl | ⟨v, rfl⟩
      · exact absurd ha2 (by simp)
      · have : ('-' : Char) = c := by
          have := congrArg (List.head?) ha2
          simpa using this
        have : ('-' : Char).toNat = c.toNat := congrArg Char.toNat this
        simp at this
        omega

/-- Nothing in the family of a numbered base equals the bare prefix
(used to keep `'root'` distinct from all `` `root-${i}` `` subtrees). -/
theorem IdExt_ne_base {p : String} {i : Nat} {x : String}
    (hi : IdExt (candidateId p i) x) : x ≠ p := by
  intro hxp
  have hx : ∃ t, x.data = p.data ++ '-' :: t := by
    rcases IdExt_structure hi with h | ⟨t, ht⟩
    · exact ⟨(Nat.repr i).data, by rw [h, candidateId_data]⟩
    · rw [candidateId_data] at ht
      exact ⟨(Nat.repr i).data ++ '-' :: t, by rw [ht]; simp⟩
  rcases hx with ⟨t, ht⟩
  rw [hxp] at ht
  have hl := congrArg List.length ht
  simp only [List.length_append, List.length_cons] at hl
  omega

/-! ## Specification of `assignUniqueId`

Every call produces a subtree whose ids are pairwise distinct, avoid the
incoming `used` set, and all extend the base prefix; the returned set is
the incoming set plus the allocated ids. -/

mutual
theorem assignUniqueId_spec (t : TreeNode) (pre : String) (used : List String) :
    (getAllNodeIds (assignUniqueId t pre used).1).Nodup ∧
    (∀ x ∈ getAllNodeIds (assignUniqueId t pre used).1, x ∉ used ∧ IdExt pre x) ∧
    (∀ y, y ∈ (assignUniqueId t pre used).2 ↔
      y ∈ getAllNodeIds (assignUniqueId t pre used).1 ∨ y ∈ used) := by
  cases t with
  | mk i c cs e s l a =>
    cases cs with
    | none =>
      refine ⟨by simp [assignUniqueId, getAllNodeIds], ?_, ?_⟩
      · intro x hx
        simp [assignUniqueId, getAllNodeIds] at hx
        subst hx
        exact ⟨freshId_not_mem used pre, IdExt_of_freshId used pre⟩
      · intro y
        simp [assignUniqueId, getAllNodeIds]
    | some children =>
      have hc := assignChildren_spec children (freshId used pre) 1
        (freshId used pre :: used)
      rcases hc with ⟨hnd, hmem, hset⟩
      refine ⟨?_, ?_, ?_⟩
      · simp only [assignUniqueId, getAllNodeIds]
        refine List.Nodup.cons ?_ hnd
        intro hmemf
        exact (hmem _ hmemf).1 (List.mem_cons_self _ _)
      · intro x hx
        simp only [assignUniqueId, getAllNodeIds, List.mem_cons] at hx
        rcases hx with rfl | hx
        · exact ⟨freshId_not_mem used pre, IdExt_of_freshId used pre⟩
        · rcases hmem x hx with ⟨hnot, k, hk⟩
          refine ⟨fun hxu => hnot (List.mem_cons_of_mem _ hxu), ?_⟩
          exact IdExt.trans
            (IdExt.step _ k (IdExt_of_freshId used pre)) hk
      · intro y
        simp only [assignUniqueId, getAllNodeIds, List.mem_cons]
        rw [hset y]
        simp only [List.mem_cons]
        tauto

theorem assignChildren_spec (ts : List TreeNode) (parentId : String) (idx : Nat)
    (used : List String) :
    (getAllNodeIdsForest (assignChildren ts parentId idx used).1).Nodup ∧
    (∀ x ∈ getAllNodeIdsForest (assignChildren ts parentId idx used).1,
      x ∉ used ∧ ∃ k, IdExt (candidateId parentId k) x) ∧
    (∀ y, y ∈ (assignChildren ts parentId idx used).2 ↔
      y ∈ getAllNodeIdsForest (assignChildren ts parentId idx used).1 ∨
        y ∈ used) := by
  cases ts with
  | nil =>
    refine ⟨by simp [assignChildren, getAllNodeIdsForest], ?_, ?_⟩
    · intro x hx
      simp [assignChildren, getAllNodeIdsForest] at hx
    · intro y
      simp [assignChildren, getAllNodeIdsForest]
  | cons t ts =>
    have h1 := assignUniqueId_spec t (candidateId parentId idx) used
    rcases h1 with ⟨hnd1, hmem1, hset1⟩
    have h2 := assignChildren_spec ts parentId (idx + 1)
      (assignUniqueId t (candidateId parentId idx) used).2
    rcases h2 with ⟨hnd2, hmem2, hset2⟩
    refine ⟨?_, ?_, ?_⟩
    · simp only [assignChildren, getAllNodeIdsForest]
      rw [List.nodup_append]
      refine ⟨hnd1, hnd2, ?_⟩
      intro x hx1 hx2
      have := (hmem2 x hx2).1
      rw [hset1 x] at this
      exact this (Or.inl hx1)
    · intro x hx
      simp only [assignChildren, getAllNodeIdsForest, List.mem_append] at hx
      rcases hx with hx | hx
      · rcases hmem1 x hx with ⟨hnot, hext⟩
        exact ⟨hnot, idx, hext⟩
      · rcases hmem2 x hx with ⟨hnot, k, hk⟩
        rw [hset1 x] at hnot
        exact ⟨fun hu => hnot (Or.inr hu), k, hk⟩
    · intro y
      simp only [assignChildren, getAllNodeIdsForest, List.mem_append]
      rw [hset2 y, hset1 y]
      tauto
end

/-- `ensureUniqueIds` produces: fresh ids (avoiding every id of the
existing tree), pairwise distinct, all extending the base id. -/
theorem ensureUniqueIds_spec (node existingTree : TreeNode) (baseId : String) :
    (getAllNodeIds (ensureUniqueIds node existingTree baseId)).Nodup ∧
    ∀ x ∈ getAllNodeIds (ensureUniqueIds node existingTree baseId),
      x ∉ getAllNodeIds existingTree ∧ IdExt baseId x := by
  have h := assignUniqueId_spec node baseId (getAllNodeIds existingTree)
  exact ⟨h.1, h.2.1⟩

/-- The per-child allocation of the initial expansion: each child subtree
avoids the old tree's ids and lives in the family of its own base
`` `root-${k}` ``; distinct bases give disjoint families, so the
concatenation is duplicate-free. -/
theorem rootExpandChildren_spec (old : TreeNode) :
    ∀ (cs : List TreeNode) (idx : Nat),
      (getAllNodeIdsForest (rootExpandChildren old cs idx)).Nodup ∧
      ∀ x ∈ getAllNodeIdsForest (rootExpandChildren old cs idx),
        x ∉ getAllNodeIds old ∧ ∃ k, idx < k ∧ IdExt (candidateId "root" k) x := by
  intro cs
  induction cs with
  | nil => intro idx; simp [rootExpandChildren, getAllNodeIdsForest]
  | cons c cs ih =>
    intro idx
    have h1 := ensureUniqueIds_spec c old (candidateId "root" (idx + 1))
    have h2 := ih (idx + 1)
    constructor
    · simp only [rootExpandChildren, getAllNodeIdsForest]
      rw [List.nodup_append]
      refine ⟨h1.1, h2.1, ?_⟩
      intro x hx1 hx2
      rcases h1.2 x hx1 with ⟨_, hef⟩
      rcases h2.2 x hx2 with ⟨_, k, hk, hkf⟩
      exact IdExt_disjoint (by omega) hef hkf
    · intro x hx
      simp only [rootExpandChildren, getAllNodeIdsForest, List.mem_append] at hx
      rcases hx with hx | hx
      · exact ⟨(h1.2 x hx).1, idx + 1, by omega, (h1.2 x hx).2⟩
      · rcases h2.2 x hx with ⟨hn, k, hk, hf⟩
        exact ⟨hn, k, by omega, hf⟩

/-! ## Correspondence lemmas between the traversals -/

mutual
theorem getAllNodeIds_eq_map (t : TreeNode) :
    getAllNodeIds t = (getAllNodes t).map TreeNode.id := by
  cases t with
  | mk i c cs e s l a =>
    cases cs with
    | none => simp [getAllNodeIds, getAllNodes, TreeNode.id]
    | some children =>
      simp only [getAllNodeIds, getAllNodes, List.map_cons]
      rw [getAllNodeIdsForest_eq_map children]
      rfl

theorem getAllNodeIdsForest_eq_map (ts : List TreeNode) :
    getAllNodeIdsForest ts = (getAllNodesForest ts).map TreeNode.id := by
  cases ts with
  | nil => simp [getAllNodeIdsForest, getAllNodesForest]
  | cons t ts =>
    simp only [getAllNodeIdsForest, getAllNodesForest, List.map_append]
    rw [getAllNodeIds_eq_map t, getAllNodeIdsForest_eq_map ts]
end

theorem shapeList_mk (i c : String) (cs : Option (List TreeNode)) (e : Bool)
    (s : Status) (l : Bool) (a : Option Bool) :
    shapeList (.mk i c cs e s l a) =
      (i, (TreeNode.mk i c cs e s l a).childlessB) :: shapeForest (cs.getD []) := by
  cases cs with
  | none =>
    simp [shapeList, shapeForest, getAllNodes, getAllNodesForest, TreeNode.id]
  | some children => simp [shapeList, shapeForest, getAllNodes, TreeNode.id]

theorem shapeForest_cons (t : TreeNode) (ts : List TreeNode) :
    shapeForest (t :: ts) = shapeList t ++ shapeForest ts := by
  simp [shapeList, shapeForest, getAllNodesForest]

theorem statusList_mk (i c : String) (cs : Option (List TreeNode)) (e : Bool)
    (s : Status) (l : Bool) (a : Option Bool) :
    statusList (.mk i c cs e s l a) = (i, s) :: statusForest (cs.getD []) := by
  cases cs with
  | none => simp [statusList, statusForest, getAllNodes, getAllNodesForest, TreeNode.id, TreeNode.status]
  | some children => simp [statusList, statusForest, getAllNodes, TreeNode.id, TreeNode.status]

theorem statusForest_cons (t : TreeNode) (ts : List TreeNode) :
    statusForest (t :: ts) = statusList t ++ statusForest ts := by
  simp [statusList, statusForest, getAllNodesForest]

theorem shapeList_map_fst (t : TreeNode) :
    (shapeList t).map Prod.fst = getAllNodeIds t := by
  rw [shapeList, getAllNodeIds_eq_map, List.map_map]
  rfl

theorem statusList_map_fst (t : TreeNode) :
    (statusList t).map Prod.fst = getAllNodeIds t := by
  rw [statusList, getAllNodeIds_eq_map, List.map_map]
  rfl

theorem substList_append (x : String) (repl l1 l2 : List String) :
    substList x repl (l1 ++ l2) = substList x repl l1 ++ substList x repl l2 := by
  induction l1 with
  | nil => rfl
  | cons y ys ih => simp [substList, ih]

theorem substList_of_not_mem (x : String) (repl : List String) (l : List String)
    (h : x ∉ l) : substList x repl l = l := by
  induction l with
  | nil => rfl
  | cons y ys ih =>
    have hyx : y ≠ x := fun hc => h (hc ▸ List.mem_cons_self y ys)
    simp only [substList, if_neg hyx]
    rw [ih (fun hc => h (List.mem_cons_of_mem _ hc))]
    rfl

theorem mem_of_mem_substList {x : String} {repl l : List String} {z : String}
    (h : z ∈ substList x repl l) : z ∈ l ∨ z ∈ repl := by
  induction l with
  | nil => simp [substList] at h
  | cons y ys ih =>
    simp only [substList, List.mem_append] at h
    rcases h with h | h
    · by_cases hyx : y = x
      · rw [if_pos hyx] at h
        exact Or.inr h
      · rw [if_neg hyx] at h
        simp at h
        exact Or.inl (h ▸ List.mem_cons_self y ys)
    · rcases ih h with h | h
      · exact Or.inl (List.mem_cons_of_mem _ h)
      · exact Or.inr h

theorem mem_substList_of_mem {x : String} {repl l : List String} {z : String}
    (hz : z ∈ l) (hne : z ≠ x) : z ∈ substList x repl l := by
  induction l with
  | nil => simp at hz
  | cons y ys ih =>
    simp only [substList, List.mem_append]
    rcases List.mem_cons.1 hz with rfl | hz
    · rw [if_neg hne]
      exact Or.inl (List.mem_singleton.2 rfl)
    · exact Or.inr (ih hz)

theorem substList_nodup {x : String} {repl l : List String}
    (hl : l.Nodup) (hr : repl.Nodup) (hd : ∀ z ∈ repl, z ∉ l) :
    (substList x repl l).Nodup := by
  induction l with
  | nil => exact List.nodup_nil
  | cons y ys ih =>
    have hys : ys.Nodup := hl.of_cons
    have hyys : y ∉ ys := (List.nodup_cons.1 hl).1
    have hd' : ∀ z ∈ repl, z ∉ ys := fun z hz =>
      fun hc => hd z hz (List.mem_cons_of_mem _ hc)
    simp only [substList]
    by_cases hyx : y = x
    · rw [if_pos hyx]
      rw [List.nodup_append]
      refine ⟨hr, ih hys hd', ?_⟩
      intro z hz hzs
      rcases mem_of_mem_substList hzs with hm | hm
      · exact hd' z hz hm
      · subst hyx
        -- z appears in repl twice-positions: impossible since subst of ys
        -- only contains repl elements when x ∈ ys, but y = x ∉ ys
        have : substList y repl ys = ys := substList_of_not_mem _ _ _ hyys
        rw [this] at hzs
        exact hd z hz (List.mem_cons_of_mem _ hzs)
    · rw [if_neg hyx]
      simp only [List.singleton_append, List.nodup_cons]
      refine ⟨?_, ih hys hd'⟩
      intro hc
      rcases mem_of_mem_substList hc with hm | hm
      · exact hyys hm
      · exact hd y hm (List.mem_cons_self y ys)

/-! ## Effect of `updateNodeInTree` -/

theorem updateNodeInTree_pos {i x : String} (ct : String)
    (cs : Option (List TreeNode)) (e : Bool) (s : Status) (l : Bool)
    (a : Option Bool) (st : Status) (c : Bool) (h : i = x) :
    updateNodeInTree (.mk i ct cs e s l a) x st c = .mk i ct cs e st l (some c) := by
  unfold updateNodeInTree
  rw [if_pos h]

theorem updateNodeInTree_neg_none {i x : String} (ct : String) (e : Bool)
    (s : Status) (l : Bool) (a : Option Bool) (st : Status) (c : Bool)
    (h : ¬ i = x) :
    updateNodeInTree (.mk i ct none e s l a) x st c = .mk i ct none e s l a := by
  unfold updateNodeInTree
  rw [if_neg h]

theorem updateNodeInTree_neg_some {i x : String} (ct : String)
    (children : List TreeNode) (e : Bool) (s : Status) (l : Bool)
    (a : Option Bool) (st : Status) (c : Bool) (h : ¬ i = x) :
    updateNodeInTree (.mk i ct (some children) e s l a) x st c =
      .mk i ct (some (updateForest children x st c)) e s l a := by
  unfold updateNodeInTree
  rw [if_neg h]

theorem replaceNodeInTree_pos {i x : String} (ct : String)
    (cs : Option (List TreeNode)) (e : Bool) (s : Status) (l : Bool)
    (a : Option Bool) (new : TreeNode) (h : i = x) :
    replaceNodeInTree (.mk i ct cs e s l a) x new = new := by
  unfold replaceNodeInTree
  rw [if_pos h]

theorem replaceNodeInTree_neg_none {i x : String} (ct : String) (e : Bool)
    (s : Status) (l : Bool) (a : Option Bool) (new : TreeNode) (h : ¬ i = x) :
    replaceNodeInTree (.mk i ct none e s l a) x new = .mk i ct none e s l a := by
  unfold replaceNodeInTree
  rw [if_neg h]

theorem replaceNodeInTree_neg_some {i x : String} (ct : String)
    (children : List TreeNode) (e : Bool) (s : Status) (l : Bool)
    (a : Option Bool) (new : TreeNode) (h : ¬ i = x) :
    replaceNodeInTree (.mk i ct (some children) e s l a) x new =
      .mk i ct (some (replaceForest children x new)) e s l a := by
  unfold replaceNodeInTree
  rw [if_neg h]

mutual
theorem shapeList_update (t : TreeNode) (x : String) (st : Status) (c : Bool) :
    shapeList (updateNodeInTree t x st c) = shapeList t := by
  cases t with
  | mk i ct cs e s l a =>
    by_cases hix : i = x
    · rw [updateNodeInTree_pos ct cs e s l a st c hix]
      rw [shapeList_mk, shapeList_mk]
      cases cs with
      | none => rfl
      | some children => cases children <;> rfl
    · cases cs with
      | none => rw [updateNodeInTree_neg_none ct e s l a st c hix]
      | some children =>
        rw [updateNodeInTree_neg_some ct children e s l a st c hix]
        rw [shapeList_mk, shapeList_mk]
        simp only [Option.getD]
        rw [shapeForest_update children x st c]
        cases children <;> rfl
termination_by sizeOf t

theorem shapeForest_update (ts : List TreeNode) (x : String) (st : Status)
    (c : Bool) : shapeForest (updateForest ts x st c) = shapeForest ts := by
  cases ts with
  | nil => rfl
  | cons t ts =>
    simp only [updateForest]
    rw [shapeForest_cons, shapeForest_cons, shapeList_update t x st c,
      shapeForest_update ts x st c]
termination_by sizeOf ts
end

theorem getAllNodeIds_update (t : TreeNode) (x : String) (st : Status)
    (c : Bool) :
    getAllNodeIds (updateNodeInTree t x st c) = getAllNodeIds t := by
  rw [← shapeList_map_fst, ← shapeList_map_fst, shapeList_update]

mutual
theorem statusList_update_mem (t : TreeNode) (x : String) (st : Status)
    (c : Bool) (p : String × Status)
    (hp : p ∈ statusList (updateNodeInTree t x st c)) (hpx : p.1 ≠ x) :
    p ∈ statusList t := by
  cases t with
  | mk i ct cs e s l a =>
    by_cases hix : i = x
    · rw [updateNodeInTree_pos ct cs e s l a st c hix] at hp
      rw [statusList_mk] at hp
      rcases List.mem_cons.1 hp with rfl | hp
      · exact absurd hix hpx
      · rw [statusList_mk]
        exact List.mem_cons_of_mem _ hp
    · cases cs with
      | none =>
        rw [updateNodeInTree_neg_none ct e s l a st c hix] at hp
        exact hp
      | some children =>
        rw [updateNodeInTree_neg_some ct children e s l a st c hix] at hp
        rw [statusList_mk] at hp
        rw [statusList_mk]
        rcases List.mem_cons.1 hp with rfl | hp
        · exact List.mem_cons_self _ _
        · simp only [Option.getD] at hp
          exact List.mem_cons_of_mem _
            (statusForest_update_mem children x st c p hp hpx)
termination_by sizeOf t

theorem statusForest_update_mem (ts : List TreeNode) (x : String) (st : Status)
    (c : Bool) (p : String × Status)
    (hp : p ∈ statusForest (updateForest ts x st c)) (hpx : p.1 ≠ x) :
    p ∈ statusForest ts := by
  cases ts with
  | nil => simp [updateForest, statusForest, getAllNodesForest] at hp
  | cons t ts =>
    simp only [updateForest] at hp
    rw [statusForest_cons] at hp
    rw [statusForest_cons]
    rcases List.mem_append.1 hp with hp | hp
    · exact List.mem_append_left _ (statusList_update_mem t x st c p hp hpx)
    · exact List.mem_append_right _ (statusForest_update_mem ts x st c p hp hpx)
termination_by sizeOf ts
end

mutual
theorem update_not_mem (t : TreeNode) (x : String) (st : Status) (c : Bool)
    (h : x ∉ getAllNodeIds t) : updateNodeInTree t x st c = t := by
  cases t with
  | mk i ct cs e s l a =>
    have hix : ¬ i = x := by
      intro hc
      apply h
      cases cs <;> simp [getAllNodeIds, hc]
    cases cs with
    | none => rw [updateNodeInTree_neg_none ct e s l a st c hix]
    | some children =>
      rw [updateNodeInTree_neg_some ct children e s l a st c hix]
      rw [updateForest_not_mem children x st c]
      intro hc
      apply h
      simp [getAllNodeIds]
      exact Or.inr hc
termination_by sizeOf t

theorem updateForest_not_mem (ts : List TreeNode) (x : String) (st : Status)
    (c : Bool) (h : x ∉ getAllNodeIdsForest ts) : updateForest ts x st c = ts := by
  cases ts with
  | nil => rfl
  | cons t ts =>
    simp only [getAllNodeIdsForest, List.mem_append] at h
    push_neg at h
    simp only [updateForest]
    rw [update_not_mem t x st c h.1, updateForest_not_mem ts x st c h.2]
termination_by sizeOf ts
end

theorem createWorkflowState_processedNodes (t : TreeNode) :
    (createWorkflowState t).processedNodes = processedCount t := rfl

theorem createWorkflowState_totalNodes (t : TreeNode) :
    (createWorkflowState t).totalNodes = totalCount t := rfl

theorem createWorkflowState_currentTree (t : TreeNode) :
    (createWorkflowState t).currentTree = t := rfl

mutual
theorem update_totalCount (t : TreeNode) (x : String) (st : Status) (c : Bool) :
    totalCount (updateNodeInTree t x st c) = totalCount t := by
  cases t with
  | mk i ct cs e s l a =>
    by_cases hix : i = x
    · rw [updateNodeInTree_pos ct cs e s l a st c hix]
      unfold totalCount
      cases cs <;> simp [getAllNodes]
    · cases cs with
      | none => rw [updateNodeInTree_neg_none ct e s l a st c hix]
      | some children =>
        rw [updateNodeInTree_neg_some ct children e s l a st c hix]
        unfold totalCount
        simp only [getAllNodes, List.length_cons]
        have := updateForest_totalCount children x st c
        unfold totalForestCount at this
        omega
termination_by sizeOf t

theorem updateForest_totalCount (ts : List TreeNode) (x : String) (st : Status)
    (c : Bool) : totalForestCount (updateForest ts x st c) = totalForestCount ts := by
  cases ts with
  | nil => rfl
  | cons t ts =>
    simp only [updateForest]
    unfold totalForestCount
    simp only [getAllNodesForest, List.length_append]
    have h1 := update_totalCount t x st c
    have h2 := updateForest_totalCount ts x st c
    unfold totalCount at h1
    unfold totalForestCount at h2
    omega
termination_by sizeOf ts
end

mutual
theorem update_processedCount (t : TreeNode) (x : String)
    (hnd : (getAllNodeIds t).Nodup) (hx : statusAt t x Status.pending)
    (hmem : x ∈ getAllNodeIds t) :
    processedCount (updateNodeInTree t x Status.can_answer true) =
      processedCount t + 1 := by
  cases t with
  | mk i ct cs e s l a =>
    by_cases hix : i = x
    · -- the matched node: status goes pending → can_answer, children untouched
      have hs : s = Status.pending := by
        have : ((i : String), s) ∈ statusList (.mk i ct cs e s l a) := by
          rw [statusList_mk]
          exact List.mem_cons_self _ _
        exact hx _ this hix
      subst hs
      rw [updateNodeInTree_pos ct cs e _ l a _ _ hix]
      cases cs with
      | none => simp [processedCount, getAllNodes, isDoneB, TreeNode.status]
      | some children =>
        simp [processedCount, getAllNodes, isDoneB, TreeNode.status]
    · cases cs with
      | none =>
        exact absurd hmem (by simp [getAllNodeIds, hix, Ne.symm hix])
      | some children =>
        have hmemf : x ∈ getAllNodeIdsForest children := by
          simp only [getAllNodeIds, List.mem_cons] at hmem
          rcases hmem with rfl | h
          · exact absurd rfl hix
          · exact h
        have hndf : (getAllNodeIdsForest children).Nodup := by
          simp only [getAllNodeIds] at hnd
          exact hnd.of_cons
        have hxf : ∀ p ∈ statusForest children, p.1 = x → p.2 = Status.pending := by
          intro p hp
          apply hx
          rw [statusList_mk]
          exact List.mem_cons_of_mem _ (by simpa using hp)
        rw [updateNodeInTree_neg_some ct children e s l a _ _ hix]
        have hf := updateForest_processedCount children x hndf hxf hmemf
        unfold processedForestCount at hf
        unfold processedCount
        simp only [getAllNodes, List.filter_cons]
        cases hh : isDoneB (TreeNode.mk i ct (some children) e s l a).status with
        | true =>
          have hh2 : isDoneB
              (TreeNode.mk i ct (some (updateForest children x Status.can_answer true))
                e s l a).status = true := hh
          simp only [hh, hh2, if_pos, List.length_cons]
          omega
        | false =>
          have hh2 : isDoneB
              (TreeNode.mk i ct (some (updateForest children x Status.can_answer true))
                e s l a).status = false := hh
          simp only [hh, hh2]
          simpa using hf
termination_by sizeOf t

theorem updateForest_processedCount (ts : List TreeNode) (x : String)
    (hnd : (getAllNodeIdsForest ts).Nodup)
    (hx : ∀ p ∈ statusForest ts, p.1 = x → p.2 = Status.pending)
    (hmem : x ∈ getAllNodeIdsForest ts) :
    processedForestCount (updateForest ts x Status.can_answer true) =
      processedForestCount ts + 1 := by
  cases ts with
  | nil => simp [getAllNodeIdsForest] at hmem
  | cons t ts =>
    simp only [getAllNodeIdsForest] at hnd hmem
    rw [List.nodup_append] at hnd
    simp only [updateForest]
    unfold processedForestCount
    simp only [getAllNodesForest, List.filter_append, List.length_append]
    rcases List.mem_append.1 hmem with hm | hm
    · have h1 := update_processedCount t x hnd.1
        (fun p hp hpx => hx p (by rw [statusForest_cons]; exact List.mem_append_left _ hp) hpx) hm
      have h2 : updateForest ts x Status.can_answer true = ts :=
        updateForest_not_mem ts x _ _ (fun hc => hnd.2.2 hm hc)
      rw [h2]
      unfold processedCount at h1
      omega
    · have h2 := updateForest_processedCount ts x hnd.2.1
        (fun p hp hpx => hx p (by rw [statusForest_cons]; exact List.mem_append_right _ hp) hpx) hm
      have h1 : updateNodeInTree t x Status.can_answer true = t :=
        update_not_mem t x _ _ (fun hc => hnd.2.2 hc hm)
      rw [h1]
      unfold processedForestCount at h2
      omega
termination_by sizeOf ts
end

/-! ## Effect of `replaceNodeInTree` -/

theorem childlessB_true_iff (i ct : String) (cs : Option (List TreeNode))
    (e : Bool) (s : Status) (l : Bool) (a : Option Bool) :
    (TreeNode.mk i ct cs e s l a).childlessB = true ↔
      cs = none ∨ cs = some [] := by
  cases cs with
  | none => simp [TreeNode.childlessB]
  | some children => cases children <;> simp [TreeNode.childlessB]

mutual
theorem replace_ids (t : TreeNode) (x : String) (new : TreeNode)
    (h : childlessAt t x) :
    getAllNodeIds (replaceNodeInTree t x new) =
      substList x (getAllNodeIds new) (getAllNodeIds t) := by
  cases t with
  | mk i ct cs e s l a =>
    by_cases hix : i = x
    · rw [replaceNodeInTree_pos ct cs e s l a new hix]
      have hcl : (TreeNode.mk i ct cs e s l a).childlessB = true := by
        apply h (i, (TreeNode.mk i ct cs e s l a).childlessB)
        · rw [shapeList_mk]
          exact List.mem_cons_self _ _
        · exact hix
      rcases (childlessB_true_iff i ct cs e s l a).1 hcl with rfl | rfl
      · simp [getAllNodeIds, substList, hix]
      · simp [getAllNodeIds, getAllNodeIdsForest, substList, hix]
    · cases cs with
      | none =>
        rw [replaceNodeInTree_neg_none ct e s l a new hix]
        simp [getAllNodeIds, substList, hix]
      | some children =>
        rw [replaceNodeInTree_neg_some ct children e s l a new hix]
        simp only [getAllNodeIds, substList, if_neg hix]
        rw [replaceForest_ids children x new]
        · rfl
        · intro p hp hpx
          apply h p _ hpx
          rw [shapeList_mk]
          exact List.mem_cons_of_mem _ (by simpa using hp)
termination_by sizeOf t

theorem replaceForest_ids (ts : List TreeNode) (x : String) (new : TreeNode)
    (h : ∀ p ∈ shapeForest ts, p.1 = x → p.2 = true) :
    getAllNodeIdsForest (replaceForest ts x new) =
      substList x (getAllNodeIds new) (getAllNodeIdsForest ts) := by
  cases ts with
  | nil => rfl
  | cons t ts =>
    simp only [replaceForest, getAllNodeIdsForest]
    rw [substList_append]
    rw [replace_ids t x new, replaceForest_ids ts x new]
    · intro p hp hpx
      exact h p (by rw [shapeForest_cons]; exact List.mem_append_right _ hp) hpx
    · intro p hp hpx
      exact h p (by rw [shapeForest_cons]; exact List.mem_append_left _ hp) hpx
termination_by sizeOf ts
end

mutual
theorem shapeList_replace_sub (t : TreeNode) (x : String) (new : TreeNode)
    (p : String × Bool) (hp : p ∈ shapeList (replaceNodeInTree t x new)) :
    p ∈ shapeList t ∨ p ∈ shapeList new := by
  cases t with
  | mk i ct cs e s l a =>
    by_cases hix : i = x
    · rw [replaceNodeInTree_pos ct cs e s l a new hix] at hp
      exact Or.inr hp
    · cases cs with
      | none =>
        rw [replaceNodeInTree_neg_none ct e s l a new hix] at hp
        exact Or.inl hp
      | some children =>
        rw [replaceNodeInTree_neg_some ct children e s l a new hix] at hp
        rw [shapeList_mk] at hp
        rcases List.mem_cons.1 hp with rfl | hp
        · left
          rw [shapeList_mk]
          have : (TreeNode.mk i ct (some (replaceForest children x new)) e s l a).childlessB
              = (TreeNode.mk i ct (some children) e s l a).childlessB := by
            cases children <;> rfl
          rw [this]
          exact List.mem_cons_self _ _
        · simp only [Option.getD] at hp
          rcases shapeForest_replace_sub children x new p hp with hm | hm
          · left
            rw [shapeList_mk]
            exact List.mem_cons_of_mem _ (by simpa using hm)
          · exact Or.inr hm
termination_by sizeOf t

theorem shapeForest_replace_sub (ts : List TreeNode) (x : String)
    (new : TreeNode) (p : String × Bool)
    (hp : p ∈ shapeForest (replaceForest ts x new)) :
    p ∈ shapeForest ts ∨ p ∈ shapeList new := by
  cases ts with
  | nil => simp [replaceForest, shapeForest, getAllNodesForest] at hp
  | cons t ts =>
    simp only [replaceForest] at hp
    rw [shapeForest_cons] at hp
    rw [shapeForest_cons]
    rcases List.mem_append.1 hp with hp | hp
    · rcases shapeList_replace_sub t x new p hp with hm | hm
      · exact Or.inl (List.mem_append_left _ hm)
      · exact Or.inr hm
    · rcases shapeForest_replace_sub ts x new p hp with hm | hm
      · exact Or.inl (List.mem_append_right _ hm)
      · exact Or.inr hm
termination_by sizeOf ts
end

/-! ## `setExpanded` changes no id, shape or status -/

theorem setExpanded_ids (t : TreeNode) (b : Bool) :
    getAllNodeIds (t.setExpanded b) = getAllNodeIds t := by
  cases t with
  | mk i c cs e s l a => cases cs <;> rfl

theorem setExpanded_shape (t : TreeNode) (b : Bool) :
    shapeList (t.setExpanded b) = shapeList t := by
  cases t with
  | mk i c cs e s l a =>
    rw [TreeNode.setExpanded, shapeList_mk, shapeList_mk]
    cases cs with
    | none => rfl
    | some children => cases children <;> rfl

/-! ## `getLeafNodes` facts -/

mutual
theorem leaf_shape (t : TreeNode) (n : TreeNode) (hn : n ∈ getLeafNodes t) :
    (n.id, true) ∈ shapeList t := by
  cases t with
  | mk i c cs e s l a =>
    cases cs with
    | none =>
      simp only [getLeafNodes, List.mem_singleton] at hn
      subst hn
      rw [shapeList_mk]
      simp [TreeNode.id, TreeNode.childlessB]
    | some children =>
      cases children with
      | nil =>
        simp only [getLeafNodes, List.mem_singleton] at hn
        subst hn
        rw [shapeList_mk]
        simp [TreeNode.id, TreeNode.childlessB]
      | cons hd tl =>
        simp only [getLeafNodes] at hn
        rw [shapeList_mk]
        exact List.mem_cons_of_mem _ (by
          simpa using leaf_shape_forest (hd :: tl) n hn)
termination_by sizeOf t

theorem leaf_shape_forest (ts : List TreeNode) (n : TreeNode)
    (hn : n ∈ getLeafNodesForest ts) : (n.id, true) ∈ shapeForest ts := by
  cases ts with
  | nil => simp [getLeafNodesForest] at hn
  | cons t ts =>
    simp only [getLeafNodesForest] at hn
    rw [shapeForest_cons]
    rcases List.mem_append.1 hn with hn | hn
    · exact List.mem_append_left _ (leaf_shape t n hn)
    · exact List.mem_append_right _ (leaf_shape_forest ts n hn)
termination_by sizeOf ts
end

mutual
theorem leaf_status (t : TreeNode) (n : TreeNode) (hn : n ∈ getLeafNodes t) :
    (n.id, n.status) ∈ statusList t := by
  cases t with
  | mk i c cs e s l a =>
    cases cs with
    | none =>
      simp only [getLeafNodes, List.mem_singleton] at hn
      subst hn
      rw [statusList_mk]
      simp [TreeNode.id, TreeNode.status]
    | some children =>
      cases children with
      | nil =>
        simp only [getLeafNodes, List.mem_singleton] at hn
        subst hn
        rw [statusList_mk]
        simp [TreeNode.id, TreeNode.status]
      | cons hd tl =>
        simp only [getLeafNodes] at hn
        rw [statusList_mk]
        exact List.mem_cons_of_mem _ (by
          simpa using leaf_status_forest (hd :: tl) n hn)
termination_by sizeOf t

theorem leaf_status_forest (ts : List TreeNode) (n : TreeNode)
    (hn : n ∈ getLeafNodesForest ts) : (n.id, n.status) ∈ statusForest ts := by
  cases ts with
  | nil => simp [getLeafNodesForest] at hn
  | cons t ts =>
    simp only [getLeafNodesForest] at hn
    rw [statusForest_cons]
    rcases List.mem_append.1 hn with hn | hn
    · exact List.mem_append_left _ (leaf_status t n hn)
    · exact List.mem_append_right _ (leaf_status_forest ts n hn)
termination_by sizeOf ts
end

mutual
theorem leaf_ids_sublist (t : TreeNode) :
    ((getLeafNodes t).map TreeNode.id).Sublist (getAllNodeIds t) := by
  cases t with
  | mk i c cs e s l a =>
    cases cs with
    | none => simp [getLeafNodes, getAllNodeIds, TreeNode.id]
    | some children =>
      cases children with
      | nil => simp [getLeafNodes, getAllNodeIds, getAllNodeIdsForest, TreeNode.id]
      | cons hd tl =>
        simp only [getLeafNodes, getAllNodeIds]
        exact (leaf_ids_sublist_forest (hd :: tl)).cons _
termination_by sizeOf t

theorem leaf_ids_sublist_forest (ts : List TreeNode) :
    ((getLeafNodesForest ts).map TreeNode.id).Sublist (getAllNodeIdsForest ts) := by
  cases ts with
  | nil => simp [getLeafNodesForest, getAllNodeIdsForest]
  | cons t ts =>
    simp only [getLeafNodesForest, getAllNodeIdsForest, List.map_append]
    exact (leaf_ids_sublist t).append (leaf_ids_sublist_forest ts)
termination_by sizeOf ts
end

/-- In a list of pairs with duplicate-free first components, the second
component is a function of the first. -/
theorem pair_unique {β : Type} {l : List (String × β)}
    (hnd : (l.map Prod.fst).Nodup) {x : String} {b b' : β}
    (h1 : (x, b) ∈ l) (h2 : (x, b') ∈ l) : b = b' := by
  induction l with
  | nil => simp at h1
  | cons p ps ih =>
    simp only [List.map_cons, List.nodup_cons] at hnd
    rcases List.mem_cons.1 h1 with hh1 | hh1
    · rcases List.mem_cons.1 h2 with hh2 | hh2
      · rw [← hh2] at hh1
        exact congrArg Prod.snd hh1
      · rw [← hh1] at hnd
        exact absurd (List.mem_map_of_mem Prod.fst hh2) hnd.1
    · rcases List.mem_cons.1 h2 with hh2 | hh2
      · rw [← hh2] at hnd
        exact (hnd.1 (List.mem_map.2 ⟨(x, b), hh1, rfl⟩)).elim
      · exact ih hnd.2 hh1 hh2

/-- Under id-uniqueness, a leaf of the snapshot is childless at its id. -/
theorem childlessAt_of_leaf {t : TreeNode} {n : TreeNode}
    (hnd : (getAllNodeIds t).Nodup) (hn : n ∈ getLeafNodes t) :
    childlessAt t n.id := by
  intro p hp hpx
  have h1 := leaf_shape t n hn
  have hfst : (shapeList t).map Prod.fst = getAllNodeIds t := shapeList_map_fst t
  have : p = (p.1, p.2) := rfl
  rw [this] at hp
  rw [hpx] at hp
  exact pair_unique (by rw [hfst]; exact hnd) hp h1

/-- Under id-uniqueness, every node carrying a leaf's id has the leaf's
status. -/
theorem statusAt_of_leaf {t : TreeNode} {n : TreeNode}
    (hnd : (getAllNodeIds t).Nodup) (hn : n ∈ getLeafNodes t) :
    statusAt t n.id n.status := by
  intro p hp hpx
  have h1 := leaf_status t n hn
  have hfst : (statusList t).map Prod.fst = getAllNodeIds t := statusList_map_fst t
  have : p = (p.1, p.2) := rfl
  rw [this] at hp
  rw [hpx] at hp
  exact pair_unique (by rw [hfst]; exact hnd) hp h1

/-- Grafting an id-fresh subtree over a childless unique node keeps ids
duplicate-free, keeps every other id present, and keeps other nodes'
childlessness. -/
theorem replace_fresh_preserves (tree new : TreeNode) (x : String)
    (hnd : (getAllNodeIds tree).Nodup) (hx : childlessAt tree x)
    (hnewnd : (getAllNodeIds new).Nodup)
    (hfresh : ∀ z ∈ getAllNodeIds new, z ∉ getAllNodeIds tree) :
    (getAllNodeIds (replaceNodeInTree tree x new)).Nodup ∧
    (∀ z ∈ getAllNodeIds tree, z ≠ x →
      z ∈ getAllNodeIds (replaceNodeInTree tree x new)) ∧
    (∀ z ∈ getAllNodeIds tree, childlessAt tree z →
      childlessAt (replaceNodeInTree tree x new) z) := by
  rw [replace_ids tree x new hx]
  refine ⟨substList_nodup hnd hnewnd hfresh, ?_, ?_⟩
  · intro z hz hzx
    exact mem_substList_of_mem hz hzx
  · intro z hz hcl p hp hpx
    rcases shapeList_replace_sub tree x new p hp with hm | hm
    · exact hcl p hm hpx
    · exfalso
      have : p.1 ∈ getAllNodeIds new := by
        rw [← shapeList_map_fst new]
        exact List.mem_map_of_mem Prod.fst hm
      rw [hpx] at this
      exact hfresh z this hz

/-! ## Equation lemmas for `processLeaves` -/

theorem processLeaves_nil (env : Env) (tree : TreeNode) (cnt : Counters) :
    processLeaves env [] tree cnt = ([], some (tree, cnt)) := rfl

theorem processLeaves_flag (env : Env) (leaf : TreeNode) (rest : List TreeNode)
    (tree : TreeNode) (cnt : Counters) (h : env.flag cnt.f = true) :
    processLeaves env (leaf :: rest) tree cnt =
      ([.terminated tree "分解过程已终止，保留当前结果" (createWorkflowState tree)],
        none) := by
  unfold processLeaves
  rw [if_pos h]

theorem processLeaves_judgeErr (env : Env) (leaf : TreeNode)
    (rest : List TreeNode) (tree : TreeNode) (cnt : Counters) (e : String)
    (h : env.flag cnt.f = false) (he : env.judge cnt.j = .error e) :
    processLeaves env (leaf :: rest) tree cnt =
      ([.judge_node leaf.id false (judgePreMessage leaf.content)
          (createWorkflowState tree), .error e], none) := by
  simp only [processLeaves, h, he, Bool.false_eq_true, if_false]

theorem processLeaves_judgeYes (env : Env) (leaf : TreeNode)
    (rest : List TreeNode) (tree : TreeNode) (cnt : Counters) (jd : Judgement)
    (h : env.flag cnt.f = false) (hj : env.judge cnt.j = .ok jd)
    (hy : jd.canDirectlyAnswer = true) :
    processLeaves env (leaf :: rest) tree cnt =
      (WEvent.judge_node leaf.id false (judgePreMessage leaf.content)
          (createWorkflowState tree) ::
        WEvent.judge_node leaf.id true (judgeYesMessage leaf.content)
          (createWorkflowState (updateNodeInTree tree leaf.id Status.can_answer true)) ::
        WEvent.progress
          (jsRoundPct
            (createWorkflowState (updateNodeInTree tree leaf.id Status.can_answer true)).processedNodes
            (createWorkflowState (updateNodeInTree tree leaf.id Status.can_answer true)).totalNodes)
          (progressMessage
            (createWorkflowState (updateNodeInTree tree leaf.id Status.can_answer true)))
          (createWorkflowState (updateNodeInTree tree leaf.id Status.can_answer true)) ::
        (processLeaves env rest (updateNodeInTree tree leaf.id Status.can_answer true)
          ⟨cnt.j + 1, cnt.d, cnt.f + 1⟩).1,
        (processLeaves env rest (updateNodeInTree tree leaf.id Status.can_answer true)
          ⟨cnt.j + 1, cnt.d, cnt.f + 1⟩).2) := by
  simp only [processLeaves, h, hj, hy, Bool.false_eq_true, if_false, if_true]

theorem processLeaves_decompOk (env : Env) (leaf : TreeNode)
    (rest : List TreeNode) (tree : TreeNode) (cnt : Counters) (jd : Judgement)
    (ai : AITreeNode) (h : env.flag cnt.f = false)
    (hj : env.judge cnt.j = .ok jd) (hy : jd.canDirectlyAnswer = false)
    (hd : env.decomp cnt.d = .ok ai) :
    processLeaves env (leaf :: rest) tree cnt =
      (WEvent.judge_node leaf.id false (judgePreMessage leaf.content)
          (createWorkflowState tree) ::
        WEvent.decompose_node leaf.id (decomposeNodeMessage leaf.content)
          (createWorkflowState tree) ::
        WEvent.update_tree
          (replaceNodeInTree tree leaf.id
            ((ensureUniqueIds (convertToTreeNode ai Status.pending) tree leaf.id).setExpanded true))
          (nodeDoneMessage leaf.content)
          (createWorkflowState
            (replaceNodeInTree tree leaf.id
              ((ensureUniqueIds (convertToTreeNode ai Status.pending) tree leaf.id).setExpanded true))) ::
        WEvent.progress
          (jsRoundPct
            (createWorkflowState
              (replaceNodeInTree tree leaf.id
                ((ensureUniqueIds (convertToTreeNode ai Status.pending) tree leaf.id).setExpanded true))).processedNodes
            (createWorkflowState
              (replaceNodeInTree tree leaf.id
                ((ensureUniqueIds (convertToTreeNode ai Status.pending) tree leaf.id).setExpanded true))).totalNodes)
          (progressMessage
            (createWorkflowState
              (replaceNodeInTree tree leaf.id
                ((ensureUniqueIds (convertToTreeNode ai Status.pending) tree leaf.id).setExpanded true))))
          (createWorkflowState
            (replaceNodeInTree tree leaf.id
              ((ensureUniqueIds (convertToTreeNode ai Status.pending) tree leaf.id).setExpanded true))) ::
        (processLeaves env rest
          (replaceNodeInTree tree leaf.id
            ((ensureUniqueIds (convertToTreeNode ai Status.pending) tree leaf.id).setExpanded true))
          ⟨cnt.j + 1, cnt.d + 1, cnt.f + 1⟩).1,
        (processLeaves env rest
          (replaceNodeInTree tree leaf.id
            ((ensureUniqueIds (convertToTreeNode ai Status.pending) tree leaf.id).setExpanded true))
          ⟨cnt.j + 1, cnt.d + 1, cnt.f + 1⟩).2) := by
  simp only [processLeaves, h, hj, hy, hd, Bool.false_eq_true, if_false]

theorem processLeaves_decompErr (env : Env) (leaf : TreeNode)
    (rest : List TreeNode) (tree : TreeNode) (cnt : Counters) (jd : Judgement)
    (e : String) (h : env.flag cnt.f = false)
    (hj : env.judge cnt.j = .ok jd) (hy : jd.canDirectlyAnswer = false)
    (hd : env.decomp cnt.d = .error e) :
    processLeaves env (leaf :: rest) tree cnt =
      (WEvent.judge_node leaf.id false (judgePreMessage leaf.content)
          (createWorkflowState tree) ::
        WEvent.decompose_node leaf.id (decomposeNodeMessage leaf.content)
          (createWorkflowState tree) ::
        WEvent.judge_node leaf.id true (nodeFailMessage leaf.content)
          (createWorkflowState (updateNodeInTree tree leaf.id Status.can_answer true)) ::
        WEvent.progress
          (jsRoundPct
            (createWorkflowState (updateNodeInTree tree leaf.id Status.can_answer true)).processedNodes
            (createWorkflowState (updateNodeInTree tree leaf.id Status.can_answer true)).totalNodes)
          (progressMessage
            (createWorkflowState (updateNodeInTree tree leaf.id Status.can_answer true)))
          (createWorkflowState (updateNodeInTree tree leaf.id Status.can_answer true)) ::
        (processLeaves env rest (updateNodeInTree tree leaf.id Status.can_answer true)
          ⟨cnt.j + 1, cnt.d + 1, cnt.f + 1⟩).1,
        (processLeaves env rest (updateNodeInTree tree leaf.id Status.can_answer true)
          ⟨cnt.j + 1, cnt.d + 1, cnt.f + 1⟩).2) := by
  simp only [processLeaves, h, hj, hy, hd, Bool.false_eq_true, if_false]

theorem childlessAt_update (t : TreeNode) (x : String) (st : Status) (c : Bool)
    (z : String) : childlessAt (updateNodeInTree t x st c) z ↔ childlessAt t z := by
  unfold childlessAt
  rw [shapeList_update]

/-- A freshly computed pending-leaf snapshot satisfies the invariant. -/
theorem snapshot_inv (tree : TreeNode) (hnd : (getAllNodeIds tree).Nodup) :
    LoopInv tree ((getLeafNodes tree).filter fun n =>
      n.status == Status.pending && n.isLeaf) := by
  refine ⟨hnd, ?_, ?_, ?_⟩
  · intro l hl
    have hm := List.mem_of_mem_filter hl
    have := leaf_shape tree l hm
    rw [← shapeList_map_fst tree]
    exact List.mem_map_of_mem Prod.fst this
  · intro l hl
    exact childlessAt_of_leaf hnd (List.mem_of_mem_filter hl)
  · have h1 : (((getLeafNodes tree).filter fun n =>
        n.status == Status.pending && n.isLeaf).map TreeNode.id).Sublist
          ((getLeafNodes tree).map TreeNode.id) :=
      (List.filter_sublist _).map TreeNode.id
    exact hnd.sublist (h1.trans (leaf_ids_sublist tree))

/-- Snapshot entries are pending at their id everywhere in the tree. -/
theorem snapshot_pending (tree : TreeNode) (hnd : (getAllNodeIds tree).Nodup) :
    ∀ l ∈ (getLeafNodes tree).filter fun n =>
        n.status == Status.pending && n.isLeaf,
      statusAt tree l.id Status.pending := by
  intro l hl
  have hm := List.mem_of_mem_filter hl
  have hp : l.status = Status.pending := by
    have := List.of_mem_filter hl
    simp only [Bool.and_eq_true, beq_iff_eq] at this
    exact this.1
  have := statusAt_of_leaf hnd hm
  rwa [hp] at this

/-- Iterating the snapshot preserves id-uniqueness of every tree carried
by an emitted event and of the resulting tree. -/
theorem processLeaves_nodup (env : Env) :
    ∀ (leaves : List TreeNode) (tree : TreeNode) (cnt : Counters),
      LoopInv tree leaves →
      (∀ e ∈ (processLeaves env leaves tree cnt).1, ∀ t ∈ eventTrees e,
          (getAllNodeIds t).Nodup) ∧
        (∀ tc, (processLeaves env leaves tree cnt).2 = some tc →
          (getAllNodeIds tc.1).Nodup) := by
  intro leaves
  induction leaves with
  | nil =>
    intro tree cnt hinv
    constructor
    · intro e he
      rw [processLeaves_nil] at he
      simp at he
    · intro tc htc
      rw [processLeaves_nil] at htc
      cases htc
      exact hinv.nodup
  | cons leaf rest ih =>
    intro tree cnt hinv
    cases hf : env.flag cnt.f with
    | true =>
      rw [processLeaves_flag env leaf rest tree cnt hf]
      constructor
      · intro e he
        simp only [List.mem_singleton] at he
        subst he
        intro t ht
        simp only [eventTrees, createWorkflowState_currentTree,
          List.mem_cons, List.mem_singleton] at ht
        rcases ht with rfl | rfl | h
        · exact hinv.nodup
        · exact hinv.nodup
        · simp at h
      · intro tc htc
        simp at htc
    | false =>
      cases hj : env.judge cnt.j with
      | error e =>
        rw [processLeaves_judgeErr env leaf rest tree cnt e hf hj]
        constructor
        · intro ev hev
          simp only [List.mem_cons, List.mem_singleton] at hev
          rcases hev with rfl | rfl | h
          · intro t ht
            simp only [eventTrees, createWorkflowState_currentTree,
              List.mem_singleton] at ht
            subst ht
            exact hinv.nodup
          · intro t ht
            simp [eventTrees] at ht
          · simp at h
        · intro tc htc
          simp at htc
      | ok jd =>
        have hinv' : ∀ st cda, LoopInv (updateNodeInTree tree leaf.id st cda) rest := by
          intro st cda
          refine ⟨?_, ?_, ?_, ?_⟩
          · rw [getAllNodeIds_update]
            exact hinv.nodup
          · intro l hl
            rw [getAllNodeIds_update]
            exact hinv.mem l (List.mem_cons_of_mem _ hl)
          · intro l hl
            rw [childlessAt_update]
            exact hinv.childless l (List.mem_cons_of_mem _ hl)
          · have := hinv.distinct
            simp only [List.map_cons, List.nodup_cons] at this
            exact this.2
        have hndup : ∀ st cda,
            (getAllNodeIds (updateNodeInTree tree leaf.id st cda)).Nodup := by
          intro st cda
          rw [getAllNodeIds_update]
          exact hinv.nodup
        cases hy : jd.canDirectlyAnswer with
        | true =>
          rw [processLeaves_judgeYes env leaf rest tree cnt jd hf hj hy]
          have hrec := ih (updateNodeInTree tree leaf.id Status.can_answer true)
            ⟨cnt.j + 1, cnt.d, cnt.f + 1⟩ (hinv' _ _)
          constructor
          · intro ev hev
            simp only [List.mem_cons] at hev
            rcases hev with rfl | rfl | rfl | hev
            · intro t ht
              simp only [eventTrees, createWorkflowState_currentTree,
                List.mem_singleton] at ht
              subst ht
              exact hinv.nodup
            · intro t ht
              simp only [eventTrees, createWorkflowState_currentTree,
                List.mem_singleton] at ht
              subst ht
              exact hndup _ _
            · intro t ht
              simp only [eventTrees, createWorkflowState_currentTree,
                List.mem_singleton] at ht
              subst ht
              exact hndup _ _
            · exact hrec.1 ev hev
          · exact hrec.2
        | false =>
          cases hd : env.decomp cnt.d with
          | ok ai =>
            rw [processLeaves_decompOk env leaf rest tree cnt jd ai hf hj hy hd]
            have hens := ensureUniqueIds_spec (convertToTreeNode ai Status.pending)
              tree leaf.id
            have hnew_ids : getAllNodeIds
                ((ensureUniqueIds (convertToTreeNode ai Status.pending) tree leaf.id).setExpanded true)
                = getAllNodeIds (ensureUniqueIds (convertToTreeNode ai Status.pending) tree leaf.id) :=
              setExpanded_ids _ _
            have hrfp := replace_fresh_preserves tree
              ((ensureUniqueIds (convertToTreeNode ai Status.pending) tree leaf.id).setExpanded true)
              leaf.id hinv.nodup
              (hinv.childless leaf (List.mem_cons_self _ _))
              (by rw [hnew_ids]; exact hens.1)
              (by rw [hnew_ids]; intro z hz; exact (hens.2 z hz).1)
            have hdist : ∀ l ∈ rest, l.id ≠ leaf.id := by
              intro l hl hc
              have := hinv.distinct
              simp only [List.map_cons, List.nodup_cons] at this
              exact this.1 (hc ▸ List.mem_map_of_mem TreeNode.id hl)
            have hinv2 : LoopInv
                (replaceNodeInTree tree leaf.id
                  ((ensureUniqueIds (convertToTreeNode ai Status.pending) tree leaf.id).setExpanded true))
                rest := by
              refine ⟨hrfp.1, ?_, ?_, ?_⟩
              · intro l hl
                exact hrfp.2.1 l.id (hinv.mem l (List.mem_cons_of_mem _ hl))
                  (hdist l hl)
              · intro l hl
                exact hrfp.2.2 l.id (hinv.mem l (List.mem_cons_of_mem _ hl))
                  (hinv.childless l (List.mem_cons_of_mem _ hl))
              · have := hinv.distinct
                simp only [List.map_cons, List.nodup_cons] at this
                exact this.2
            have hrec := ih _ ⟨cnt.j + 1, cnt.d + 1, cnt.f + 1⟩ hinv2
            constructor
            · intro ev hev
              simp only [List.mem_cons] at hev
              rcases hev with rfl | rfl | rfl | rfl | hev
              · intro t ht
                simp only [eventTrees, createWorkflowState_currentTree,
                  List.mem_singleton] at ht
                subst ht
                exact hinv.nodup
              · intro t ht
                simp only [eventTrees, createWorkflowState_currentTree,
                  List.mem_singleton] at ht
                subst ht
                exact hinv.nodup
              · intro t ht
                simp only [eventTrees, createWorkflowState_currentTree,
                  List.mem_cons, List.mem_singleton] at ht
                rcases ht with rfl | rfl | h
                · exact hrfp.1
                · exact hrfp.1
                · simp at h
              · intro t ht
                simp only [eventTrees, createWorkflowState_currentTree,
                  List.mem_singleton] at ht
                subst ht
                exact hrfp.1
              · exact hrec.1 ev hev
            · exact hrec.2
          | error e =>
            rw [processLeaves_decompErr env leaf rest tree cnt jd e hf hj hy hd]
            have hrec := ih (updateNodeInTree tree leaf.id Status.can_answer true)
              ⟨cnt.j + 1, cnt.d + 1, cnt.f + 1⟩ (hinv' _ _)
            constructor
            · intro ev hev
              simp only [List.mem_cons] at hev
              rcases hev with rfl | rfl | rfl | rfl | hev
              · intro t ht
                simp only [eventTrees, createWorkflowState_currentTree,
                  List.mem_singleton] at ht
                subst ht
                exact hinv.nodup
              · intro t ht
                simp only [eventTrees, createWorkflowState_currentTree,
                  List.mem_singleton] at ht
                subst ht
                exact hinv.nodup
              · intro t ht
                simp only [eventTrees, createWorkflowState_currentTree,
                  List.mem_singleton] at ht
                subst ht
                exact hndup _ _
              · intro t ht
                simp only [eventTrees, createWorkflowState_currentTree,
                  List.mem_singleton] at ht
                subst ht
                exact hndup _ _
              · exact hrec.1 ev hev
            · exact hrec.2

theorem passLoop_zero (env : Env) (tree : TreeNode) (cnt : Counters) :
    passLoop env 0 tree cnt =
      [.complete tree "任务分解完成！" (createWorkflowState tree)] := rfl

theorem passLoop_succ_flag (env : Env) (f : Nat) (tree : TreeNode)
    (cnt : Counters) (h : env.flag cnt.f = true) :
    passLoop env (f + 1) tree cnt =
      [.terminated tree "分解过程已终止，保留当前结果" (createWorkflowState tree)] := by
  simp only [passLoop, h, if_true]

theorem passLoop_succ_empty (env : Env) (f : Nat) (tree : TreeNode)
    (cnt : Counters) (h : env.flag cnt.f = false)
    (he : (pendingSnapshot tree).isEmpty = true) :
    passLoop env (f + 1) tree cnt =
      [.complete tree "任务分解完成！" (createWorkflowState tree)] := by
  simp only [passLoop, h, Bool.false_eq_true, if_false, pendingSnapshot] at he ⊢
  rw [if_pos he]

theorem passLoop_succ_halt (env : Env) (f : Nat) (tree : TreeNode)
    (cnt : Counters) (h : env.flag cnt.f = false)
    (he : (pendingSnapshot tree).isEmpty = false)
    (hr : (processLeaves env (pendingSnapshot tree) tree
      ⟨cnt.j, cnt.d, cnt.f + 1⟩).2 = none) :
    passLoop env (f + 1) tree cnt =
      (processLeaves env (pendingSnapshot tree) tree
        ⟨cnt.j, cnt.d, cnt.f + 1⟩).1 := by
  simp only [passLoop, h, Bool.false_eq_true, if_false, pendingSnapshot] at hr ⊢
  rw [if_neg (by simp [he, pendingSnapshot] at *; exact he)]
  rw [hr]

theorem passLoop_succ_cont (env : Env) (f : Nat) (tree : TreeNode)
    (cnt : Counters) (tc : TreeNode × Counters) (h : env.flag cnt.f = false)
    (he : (pendingSnapshot tree).isEmpty = false)
    (hr : (processLeaves env (pendingSnapshot tree) tree
      ⟨cnt.j, cnt.d, cnt.f + 1⟩).2 = some tc) :
    passLoop env (f + 1) tree cnt =
      (processLeaves env (pendingSnapshot tree) tree
        ⟨cnt.j, cnt.d, cnt.f + 1⟩).1 ++ passLoop env f tc.1 tc.2 := by
  simp only [passLoop, h, Bool.false_eq_true, if_false, pendingSnapshot] at hr ⊢
  rw [if_neg (by simp [he, pendingSnapshot] at *; exact he)]
  rw [hr]

/-- Every tree carried by an event of the pass loop has duplicate-free
ids, provided the incoming tree does. -/
theorem passLoop_nodup (env : Env) :
    ∀ (fuel : Nat) (tree : TreeNode) (cnt : Counters),
      (getAllNodeIds tree).Nodup →
      ∀ e ∈ passLoop env fuel tree cnt, ∀ t ∈ eventTrees e,
        (getAllNodeIds t).Nodup := by
  intro fuel
  induction fuel with
  | zero =>
    intro tree cnt hnd e he
    rw [passLoop_zero] at he
    simp only [List.mem_singleton] at he
    subst he
    intro t ht
    simp only [eventTrees, createWorkflowState_currentTree, List.mem_cons,
      List.mem_singleton] at ht
    rcases ht with rfl | rfl | h
    · exact hnd
    · exact hnd
    · simp at h
  | succ f ih =>
    intro tree cnt hnd e he
    cases hf : env.flag cnt.f with
    | true =>
      rw [passLoop_succ_flag env f tree cnt hf] at he
      simp only [List.mem_singleton] at he
      subst he
      intro t ht
      simp only [eventTrees, createWorkflowState_currentTree, List.mem_cons,
        List.mem_singleton] at ht
      rcases ht with rfl | rfl | h
      · exact hnd
      · exact hnd
      · simp at h
    | false =>
      cases hemp : (pendingSnapshot tree).isEmpty with
      | true =>
        rw [passLoop_succ_empty env f tree cnt hf hemp] at he
        simp only [List.mem_singleton] at he
        subst he
        intro t ht
        simp only [eventTrees, createWorkflowState_currentTree, List.mem_cons,
          List.mem_singleton] at ht
        rcases ht with rfl | rfl | h
        · exact hnd
        · exact hnd
        · simp at h
      | false =>
        have hinv : LoopInv tree (pendingSnapshot tree) := snapshot_inv tree hnd
        have hpl := processLeaves_nodup env (pendingSnapshot tree) tree
          ⟨cnt.j, cnt.d, cnt.f + 1⟩ hinv
        cases hr : (processLeaves env (pendingSnapshot tree) tree
          ⟨cnt.j, cnt.d, cnt.f + 1⟩).2 with
        | none =>
          rw [passLoop_succ_halt env f tree cnt hf hemp hr] at he
          exact hpl.1 e he
        | some tc =>
          rw [passLoop_succ_cont env f tree cnt tc hf hemp hr] at he
          rcases List.mem_append.1 he with he | he
          · exact hpl.1 e he
          · exact ih tc.1 tc.2 (hpl.2 tc hr) e he

/-! ## Equation lemmas for `executeWorkflow`, root tree uniqueness -/

theorem executeWorkflow_flag (env : Env) (b : Bool) (text : String)
    (mode : DecomposeMode) (h : env.flag 0 = true) :
    executeWorkflow env b text mode =
      [.start (startMessage mode) (createWorkflowState (initialTree text)),
       .decompose_node "root" "正在分解根任务..."
         (createWorkflowState (initialTree text)),
       .terminated (initialTree text) "分解过程已终止"
         (createWorkflowState (initialTree text))] := by
  simp only [executeWorkflow, h, if_true]

theorem executeWorkflow_rootErr (env : Env) (b : Bool) (text : String)
    (mode : DecomposeMode) (e : String) (h : env.flag 0 = false)
    (he : env.decomp 0 = .error e) :
    executeWorkflow env b text mode =
      [.start (startMessage mode) (createWorkflowState (initialTree text)),
       .decompose_node "root" "正在分解根任务..."
         (createWorkflowState (initialTree text)),
       .error e] := by
  simp only [executeWorkflow, h, he, Bool.false_eq_true, if_false]

theorem executeWorkflow_rootOk (env : Env) (b : Bool) (text : String)
    (mode : DecomposeMode) (ai : AITreeNode) (h : env.flag 0 = false)
    (hok : env.decomp 0 = .ok ai) :
    executeWorkflow env b text mode =
      [.start (startMessage mode) (createWorkflowState (initialTree text)),
       .decompose_node "root" "正在分解根任务..."
         (createWorkflowState (initialTree text)),
       .update_tree (rootTree1 text ai) "根任务分解完成"
         (createWorkflowState (rootTree1 text ai))] ++
        passLoop env maxIterations (rootTree1 text ai) ⟨0, 1, 1⟩ := by
  simp only [executeWorkflow, h, hok, Bool.false_eq_true, if_false]

theorem initialTree_ids (text : String) :
    getAllNodeIds (initialTree text) = ["root"] := rfl

theorem rootTree1_nodup (text : String) (ai : AITreeNode) :
    (getAllNodeIds (rootTree1 text ai)).Nodup := by
  unfold rootTree1
  cases hconv : convertToTreeNode ai Status.pending with
  | mk i c cs e s l a =>
    cases cs with
    | none =>
      rw [setExpanded_ids]
      simp [getAllNodeIds]
    | some children =>
      rw [setExpanded_ids]
      have hspec := rootExpandChildren_spec (initialTree text) children 0
      simp only [getAllNodeIds, List.nodup_cons]
      refine ⟨?_, hspec.1⟩
      intro hc
      rcases hspec.2 "root" hc with ⟨hnot, _⟩
      rw [initialTree_ids] at hnot
      exact hnot (List.mem_singleton.2 rfl)

theorem TerminalLast.cons (x : WEvent) (l : List WEvent)
    (hx : isTerminal x = false) (h : TerminalLast l) : TerminalLast (x :: l) := by
  rcases h with ⟨pre, e, rfl, hterm, hpre⟩
  refine ⟨x :: pre, e, rfl, hterm, ?_⟩
  intro y hy
  rcases List.mem_cons.1 hy with rfl | hy
  · exact hx
  · exact hpre y hy

theorem TerminalLast.append_left (l1 l2 : List WEvent)
    (h1 : ∀ x ∈ l1, isTerminal x = false) (h : TerminalLast l2) :
    TerminalLast (l1 ++ l2) := by
  rcases h with ⟨pre, e, rfl, hterm, hpre⟩
  refine ⟨l1 ++ pre, e, by rw [List.append_assoc], hterm, ?_⟩
  intro y hy
  rcases List.mem_append.1 hy with hy | hy
  · exact h1 y hy
  · exact hpre y hy

theorem TerminalLast.single (e : WEvent) (h : isTerminal e = true) :
    TerminalLast [e] :=
  ⟨[], e, rfl, h, by simp⟩

theorem processLeaves_terminal (env : Env) :
    ∀ (leaves : List TreeNode) (tree : TreeNode) (cnt : Counters),
      ((processLeaves env leaves tree cnt).2 = none →
        TerminalLast (processLeaves env leaves tree cnt).1) ∧
      (∀ tc, (processLeaves env leaves tree cnt).2 = some tc →
        ∀ x ∈ (processLeaves env leaves tree cnt).1, isTerminal x = false) := by
  intro leaves
  induction leaves with
  | nil =>
    intro tree cnt
    constructor
    · intro h
      rw [processLeaves_nil] at h
      simp at h
    · intro tc _ x hx
      rw [processLeaves_nil] at hx
      simp at hx
  | cons leaf rest ih =>
    intro tree cnt
    cases hf : env.flag cnt.f with
    | true =>
      rw [processLeaves_flag env leaf rest tree cnt hf]
      constructor
      · intro _
        exact TerminalLast.single _ rfl
      · intro tc h
        simp at h
    | false =>
      cases hj : env.judge cnt.j with
      | error e =>
        rw [processLeaves_judgeErr env leaf rest tree cnt e hf hj]
        constructor
        · intro _
          exact TerminalLast.cons _ _ rfl (TerminalLast.single _ rfl)
        · intro tc h
          simp at h
      | ok jd =>
        cases hy : jd.canDirectlyAnswer with
        | true =>
          rw [processLeaves_judgeYes env leaf rest tree cnt jd hf hj hy]
          have hrec := ih (updateNodeInTree tree leaf.id Status.can_answer true)
            ⟨cnt.j + 1, cnt.d, cnt.f + 1⟩
          constructor
          · intro hnone
            exact TerminalLast.cons _ _ rfl (TerminalLast.cons _ _ rfl
              (TerminalLast.cons _ _ rfl (hrec.1 hnone)))
          · intro tc hsome x hx
            rcases List.mem_cons.1 hx with rfl | hx
            · rfl
            rcases List.mem_cons.1 hx with rfl | hx
            · rfl
            rcases List.mem_cons.1 hx with rfl | hx
            · rfl
            · exact hrec.2 tc hsome x hx
        | false =>
          cases hd : env.decomp cnt.d with
          | ok ai =>
            rw [processLeaves_decompOk env leaf rest tree cnt jd ai hf hj hy hd]
            have hrec := ih
              (replaceNodeInTree tree leaf.id
                ((ensureUniqueIds (convertToTreeNode ai Status.pending) tree leaf.id).setExpanded true))
              ⟨cnt.j + 1, cnt.d + 1, cnt.f + 1⟩
            constructor
            · intro hnone
              exact TerminalLast.cons _ _ rfl (TerminalLast.cons _ _ rfl
                (TerminalLast.cons _ _ rfl (TerminalLast.cons _ _ rfl (hrec.1 hnone))))
            · intro tc hsome x hx
              rcases List.mem_cons.1 hx with rfl | hx
              · rfl
              rcases List.mem_cons.1 hx with rfl | hx
              · rfl
              rcases List.mem_cons.1 hx with rfl | hx
              · rfl
              rcases List.mem_cons.1 hx with rfl | hx
              · rfl
              · exact hrec.2 tc hsome x hx
          | error e =>
            rw [processLeaves_decompErr env leaf rest tree cnt jd e hf hj hy hd]
            have hrec := ih (updateNodeInTree tree leaf.id Status.can_answer true)
              ⟨cnt.j + 1, cnt.d + 1, cnt.f + 1⟩
            constructor
            · intro hnone
              exact TerminalLast.cons _ _ rfl (TerminalLast.cons _ _ rfl
                (TerminalLast.cons _ _ rfl (TerminalLast.cons _ _ rfl (hrec.1 hnone))))
            · intro tc hsome x hx
              rcases List.mem_cons.1 hx with rfl | hx
              · rfl
              rcases List.mem_cons.1 hx with rfl | hx
              · rfl
              rcases List.mem_cons.1 hx with rfl | hx
              · rfl
              rcases List.mem_cons.1 hx with rfl | hx
              · rfl
              · exact hrec.2 tc hsome x hx

theorem passLoop_terminal (env : Env) :
    ∀ (fuel : Nat) (tree : TreeNode) (cnt : Counters),
      TerminalLast (passLoop env fuel tree cnt) := by
  intro fuel
  induction fuel with
  | zero =>
    intro tree cnt
    exact TerminalLast.single _ rfl
  | succ f ih =>
    intro tree cnt
    cases hf : env.flag cnt.f with
    | true =>
      rw [passLoop_succ_flag env f tree cnt hf]
      exact TerminalLast.single _ rfl
    | false =>
      cases hemp : (pendingSnapshot tree).isEmpty with
      | true =>
        rw [passLoop_succ_empty env f tree cnt hf hemp]
        exact TerminalLast.single _ rfl
      | false =>
        have hpl := processLeaves_terminal env (pendingSnapshot tree) tree
          ⟨cnt.j, cnt.d, cnt.f + 1⟩
        cases hr : (processLeaves env (pendingSnapshot tree) tree
          ⟨cnt.j, cnt.d, cnt.f + 1⟩).2 with
        | none =>
          rw [passLoop_succ_halt env f tree cnt hf hemp hr]
          exact hpl.1 hr
        | some tc =>
          rw [passLoop_succ_cont env f tree cnt tc hf hemp hr]
          exact TerminalLast.append_left _ _ (hpl.2 tc hr) (ih tc.1 tc.2)

theorem executeWorkflow_terminal (env : Env) (b : Bool) (text : String)
    (mode : DecomposeMode) : TerminalLast (executeWorkflow env b text mode) := by
  cases hf : env.flag 0 with
  | true =>
    rw [executeWorkflow_flag env b text mode hf]
    exact TerminalLast.cons _ _ rfl (TerminalLast.cons _ _ rfl
      (TerminalLast.single _ rfl))
  | false =>
    cases hd : env.decomp 0 with
    | error er =>
      rw [executeWorkflow_rootErr env b text mode er hf hd]
      exact TerminalLast.cons _ _ rfl (TerminalLast.cons _ _ rfl
        (TerminalLast.single _ rfl))
    | ok ai =>
      rw [executeWorkflow_rootOk env b text mode ai hf hd]
      refine TerminalLast.append_left _ _ ?_
        (passLoop_terminal env maxIterations (rootTree1 text ai) ⟨0, 1, 1⟩)
      intro x hx
      rcases List.mem_cons.1 hx with rfl | hx
      · rfl
      rcases List.mem_cons.1 hx with rfl | hx
      · rfl
      rcases List.mem_cons.1 hx with rfl | hx
      · rfl
      · simp at hx

theorem transportRun_closed (mode : DecomposeMode) :
    ∀ evs : List WEvent, (transportRun mode evs).2 = true := by
  intro evs
  induction evs with
  | nil => rfl
  | cons e rest ih =>
    by_cases h : isTerminal e = true
    · simp [transportRun, h]
    · simp only [transportRun]
      rw [if_neg (by simpa using h)]
      exact ih

theorem transportRun_frames (mode : DecomposeMode) :
    ∀ evs : List WEvent,
      (transportRun mode evs).1 = (takeUntilTerminal evs).map (encodeEvent mode) := by
  intro evs
  induction evs with
  | nil => rfl
  | cons e rest ih =>
    by_cases h : isTerminal e = true
    · simp [transportRun, takeUntilTerminal, h]
    · simp only [transportRun, takeUntilTerminal]
      rw [if_neg (by simpa using h), if_neg (by simpa using h)]
      simp only [List.map_cons]
      rw [ih]

theorem takeUntilTerminal_of_terminalLast (l : List WEvent)
    (h : TerminalLast l) : takeUntilTerminal l = l := by
  rcases h with ⟨pre, e, rfl, hterm, hpre⟩
  induction pre with
  | nil => simp [takeUntilTerminal, hterm]
  | cons x xs ih =>
    have hx : isTerminal x = false := hpre x (List.mem_cons_self _ _)
    simp only [List.cons_append, takeUntilTerminal]
    rw [if_neg (by simp [hx])]
    simp only [List.append_eq]
    rw [ih (fun y hy => hpre y (List.mem_cons_of_mem _ hy))]

/-! ## No `terminated` event without an observed flag -/

theorem processLeaves_noTerminated (env : Env)
    (hflag : ∀ k, env.flag k = false) :
    ∀ (leaves : List TreeNode) (tree : TreeNode) (cnt : Counters),
      ∀ e ∈ (processLeaves env leaves tree cnt).1, isTerminatedEv e = false := by
  intro leaves
  induction leaves with
  | nil =>
    intro tree cnt e he
    rw [processLeaves_nil] at he
    simp at he
  | cons leaf rest ih =>
    intro tree cnt e he
    cases hj : env.judge cnt.j with
    | error er =>
      rw [processLeaves_judgeErr env leaf rest tree cnt er (hflag _) hj] at he
      rcases List.mem_cons.1 he with rfl | he
      · rfl
      · simp only [List.mem_singleton] at he
        subst he
        rfl
    | ok jd =>
      cases hy : jd.canDirectlyAnswer with
      | true =>
        rw [processLeaves_judgeYes env leaf rest tree cnt jd (hflag _) hj hy] at he
        rcases List.mem_cons.1 he with rfl | he
        · rfl
        rcases List.mem_cons.1 he with rfl | he
        · rfl
        rcases List.mem_cons.1 he with rfl | he
        · rfl
        · exact ih _ _ e he
      | false =>
        cases hd : env.decomp cnt.d with
        | ok ai =>
          rw [processLeaves_decompOk env leaf rest tree cnt jd ai (hflag _) hj hy hd] at he
          rcases List.mem_cons.1 he with rfl | he
          · rfl
          rcases List.mem_cons.1 he with rfl | he
          · rfl
          rcases List.mem_cons.1 he with rfl | he
          · rfl
          rcases List.mem_cons.1 he with rfl | he
          · rfl
          · exact ih _ _ e he
        | error er =>
          rw [processLeaves_decompErr env leaf rest tree cnt jd er (hflag _) hj hy hd] at he
          rcases List.mem_cons.1 he with rfl | he
          · rfl
          rcases List.mem_cons.1 he with rfl | he
          · rfl
          rcases List.mem_cons.1 he with rfl | he
          · rfl
          rcases List.mem_cons.1 he with rfl | he
          · rfl
          · exact ih _ _ e he

theorem passLoop_noTerminated (env : Env) (hflag : ∀ k, env.flag k = false) :
    ∀ (fuel : Nat) (tree : TreeNode) (cnt : Counters),
      ∀ e ∈ passLoop env fuel tree cnt, isTerminatedEv e = false := by
  intro fuel
  induction fuel with
  | zero =>
    intro tree cnt e he
    rw [passLoop_zero] at he
    simp only [List.mem_singleton] at he
    subst he
    rfl
  | succ f ih =>
    intro tree cnt e he
    cases hemp : (pendingSnapshot tree).isEmpty with
    | true =>
      rw [passLoop_succ_empty env f tree cnt (hflag _) hemp] at he
      simp only [List.mem_singleton] at he
      subst he
      rfl
    | false =>
      cases hr : (processLeaves env (pendingSnapshot tree) tree
        ⟨cnt.j, cnt.d, cnt.f + 1⟩).2 with
      | none =>
        rw [passLoop_succ_halt env f tree cnt (hflag _) hemp hr] at he
        exact processLeaves_noTerminated env hflag _ _ _ e he
      | some tc =>
        rw [passLoop_succ_cont env f tree cnt tc (hflag _) hemp hr] at he
        rcases List.mem_append.1 he with he | he
        · exact processLeaves_noTerminated env hflag _ _ _ e he
        · exact ih tc.1 tc.2 e he

theorem executeWorkflow_noTerminated (env : Env) (b : Bool) (text : String)
    (mode : DecomposeMode) (hflag : ∀ k, env.flag k = false) :
    ∀ e ∈ executeWorkflow env b text mode, isTerminatedEv e = false := by
  intro e he
  cases hd : env.decomp 0 with
  | error er =>
    rw [executeWorkflow_rootErr env b text mode er (hflag 0) hd] at he
    rcases List.mem_cons.1 he with rfl | he
    · rfl
    rcases List.mem_cons.1 he with rfl | he
    · rfl
    · simp only [List.mem_singleton] at he
      subst he
      rfl
  | ok ai =>
    rw [executeWorkflow_rootOk env b text mode ai (hflag 0) hd] at he
    rcases List.mem_cons.1 he with rfl | he
    · rfl
    rcases List.mem_cons.1 he with rfl | he
    · rfl
    rcases List.mem_cons.1 he with rfl | he
    · rfl
    · exact passLoop_noTerminated env hflag maxIterations _ _ e he

theorem flagAfter_reset (b : Bool) (ops ops' : List FlagOp) :
    flagAfter b (ops ++ FlagOp.reset :: ops') = flagAfter false ops' := by
  induction ops generalizing b with
  | nil => rfl
  | cons op ops ih => cases op <;> simp [flagAfter, ih]

theorem flagAfter_no_terminate (ops : List FlagOp)
    (h : ∀ op ∈ ops, op ≠ FlagOp.terminate) : flagAfter false ops = false := by
  induction ops with
  | nil => rfl
  | cons op ops ih =>
    cases op with
    | terminate => exact absurd rfl (h _ (List.mem_cons_self _ _))
    | reset =>
      simp only [flagAfter]
      exact ih fun o ho => h o (List.mem_cons_of_mem _ ho)

theorem progSeq_append (n : Nat) :
    ∀ (a : Nat) (p b : Nat),
      progSeq n p a ++ progSeq n (p + a) b = progSeq n p (a + b) := by
  intro a
  induction a with
  | zero => intro p b; simp [progSeq]
  | succ a ih =>
    intro p b
    simp only [progSeq, List.cons_append]
    rw [show p + (a + 1) = (p + 1) + a by omega, ih (p + 1) b]
    rw [show a + 1 + b = (a + b) + 1 by omega]
    rfl

theorem jsRoundPct_mono (p q n : Nat) (h : p ≤ q) :
    jsRoundPct p n ≤ jsRoundPct q n :=
  Nat.div_le_div_right (by omega)

theorem nonDecreasing_cons (a : Nat) (l : List Nat)
    (h1 : ∀ y ∈ l.head?, a ≤ y) (h2 : nonDecreasing l = true) :
    nonDecreasing (a :: l) = true := by
  cases l with
  | nil => rfl
  | cons b l' =>
    simp only [nonDecreasing, Bool.and_eq_true, decide_eq_true_eq]
    exact ⟨h1 b rfl, h2⟩

theorem progSeq_nonDecr (n : Nat) :
    ∀ (m p : Nat),
      nonDecreasing (progSeq n p m) = true ∧
        ∀ y ∈ (progSeq n p m).head?, jsRoundPct (p + 1) n ≤ y := by
  intro m
  induction m with
  | zero =>
    intro p
    exact ⟨rfl, by simp [progSeq]⟩
  | succ m ih =>
    intro p
    constructor
    · apply nonDecreasing_cons
      · intro y hy
        have := (ih (p + 1)).2 y hy
        exact le_trans (jsRoundPct_mono _ _ _ (by omega)) this
      · exact (ih (p + 1)).1
    · intro y hy
      simp only [progSeq, List.head?, Option.mem_def, Option.some.injEq] at hy
      subst hy
      exact le_refl _

theorem progressValues_append (l1 l2 : List WEvent) :
    progressValues (l1 ++ l2) = progressValues l1 ++ progressValues l2 := by
  induction l1 with
  | nil => rfl
  | cons e l1 ih =>
    cases e <;> simp [progressValues, ih]

theorem loopInv_update (tree leaf : TreeNode) (rest : List TreeNode)
    (hinv : LoopInv tree (leaf :: rest)) (st : Status) (cda : Bool) :
    LoopInv (updateNodeInTree tree leaf.id st cda) rest := by
  refine ⟨?_, ?_, ?_, ?_⟩
  · rw [getAllNodeIds_update]
    exact hinv.nodup
  · intro l hl
    rw [getAllNodeIds_update]
    exact hinv.mem l (List.mem_cons_of_mem _ hl)
  · intro l hl
    rw [childlessAt_update]
    exact hinv.childless l (List.mem_cons_of_mem _ hl)
  · have := hinv.distinct
    simp only [List.map_cons, List.nodup_cons] at this
    exact this.2

theorem statusAt_update_of_ne (t : TreeNode) (x z : String) (s0 st : Status)
    (c : Bool) (hz : statusAt t z s0) (hne : z ≠ x) :
    statusAt (updateNodeInTree t x st c) z s0 := by
  intro p hp hpz
  exact hz p (statusList_update_mem t x st c p hp (by rw [hpz]; exact hne)) hpz

/-- In a session whose every judgement is `canDirectlyAnswer = true` and
with no termination request, one snapshot iteration marks each leaf in
turn: progress events carry the rounded values of `processed+1 …
processed+m` over a constant total. -/
theorem processLeaves_progress (env : Env)
    (hjudge : ∀ k, ∃ jd, env.judge k = .ok jd ∧ jd.canDirectlyAnswer = true)
    (hflag : ∀ k, env.flag k = false) :
    ∀ (leaves : List TreeNode) (tree : TreeNode) (cnt : Counters),
      LoopInv tree leaves →
      (∀ l ∈ leaves, statusAt tree l.id Status.pending) →
      ∃ tc, (processLeaves env leaves tree cnt).2 = some tc ∧
        processedCount tc.1 = processedCount tree + leaves.length ∧
        totalCount tc.1 = totalCount tree ∧
        progressValues (processLeaves env leaves tree cnt).1 =
          progSeq (totalCount tree) (processedCount tree) leaves.length := by
  intro leaves
  induction leaves with
  | nil =>
    intro tree cnt _ _
    exact ⟨(tree, cnt), rfl, by simp, by simp, rfl⟩
  | cons leaf rest ih =>
    intro tree cnt hinv hpend
    rcases hjudge cnt.j with ⟨jd, hj, hy⟩
    rw [processLeaves_judgeYes env leaf rest tree cnt jd (hflag _) hj hy]
    have hproc : processedCount (updateNodeInTree tree leaf.id Status.can_answer true)
        = processedCount tree + 1 :=
      update_processedCount tree leaf.id hinv.nodup
        (hpend leaf (List.mem_cons_self _ _))
        (hinv.mem leaf (List.mem_cons_self _ _))
    have htot : totalCount (updateNodeInTree tree leaf.id Status.can_answer true)
        = totalCount tree := update_totalCount tree leaf.id _ _
    have hinv' := loopInv_update tree leaf rest hinv Status.can_answer true
    have hpend' : ∀ l ∈ rest,
        statusAt (updateNodeInTree tree leaf.id Status.can_answer true) l.id
          Status.pending := by
      intro l hl
      apply statusAt_update_of_ne
      · exact hpend l (List.mem_cons_of_mem _ hl)
      · intro hc
        have := hinv.distinct
        simp only [List.map_cons, List.nodup_cons] at this
        exact this.1 (hc ▸ List.mem_map_of_mem TreeNode.id hl)
    rcases ih (updateNodeInTree tree leaf.id Status.can_answer true)
      ⟨cnt.j + 1, cnt.d, cnt.f + 1⟩ hinv' hpend' with ⟨tc, hsome, hp, ht, hpv⟩
    refine ⟨tc, hsome, ?_, ?_, ?_⟩
    · rw [hp, hproc]
      simp only [List.length_cons]
      omega
    · rw [ht, htot]
    · simp only [progressValues]
      rw [hpv, hproc, htot]
      simp only [createWorkflowState_processedNodes, createWorkflowState_totalNodes]
      rw [hproc, htot]
      simp only [List.length_cons, progSeq]

/-- With all-true judgements and no termination, the whole pass loop
produces one consecutive run of rounded progress values. -/
theorem passLoop_progress (env : Env)
    (hjudge : ∀ k, ∃ jd, env.judge k = .ok jd ∧ jd.canDirectlyAnswer = true)
    (hflag : ∀ k, env.flag k = false) :
    ∀ (fuel : Nat) (tree : TreeNode) (cnt : Counters),
      (getAllNodeIds tree).Nodup →
      ∃ K, progressValues (passLoop env fuel tree cnt) =
        progSeq (totalCount tree) (processedCount tree) K := by
  intro fuel
  induction fuel with
  | zero =>
    intro tree cnt _
    exact ⟨0, rfl⟩
  | succ f ih =>
    intro tree cnt hnd
    cases hemp : (pendingSnapshot tree).isEmpty with
    | true =>
      rw [passLoop_succ_empty env f tree cnt (hflag _) hemp]
      exact ⟨0, rfl⟩
    | false =>
      have hinv := snapshot_inv tree hnd
      have hpend := snapshot_pending tree hnd
      rcases processLeaves_progress env hjudge hflag (pendingSnapshot tree) tree
        ⟨cnt.j, cnt.d, cnt.f + 1⟩ hinv hpend with ⟨tc, hsome, hp, ht, hpv⟩
      rw [passLoop_succ_cont env f tree cnt tc (hflag _) hemp hsome]
      have hndtc : (getAllNodeIds tc.1).Nodup :=
        (processLeaves_nodup env (pendingSnapshot tree) tree
          ⟨cnt.j, cnt.d, cnt.f + 1⟩ hinv).2 tc hsome
      rcases ih tc.1 tc.2 hndtc with ⟨K, hK⟩
      rw [progressValues_append, hpv, hK, hp, ht]
      exact ⟨(pendingSnapshot tree).length + K,
        progSeq_append _ _ _ _⟩

/-! ## Claim theorems: orchestrator -/

theorem uniqueIds_of_nodup (t : TreeNode)
    (h : (getAllNodeIds t).Nodup) : UniqueIds t := by
  refine ⟨h, ?_⟩
  rw [List.toFinset_card_of_nodup h, getAllNodeIds_eq_map, List.length_map]

/-- C1: for every tree snapshot produced during a session of
`executeWorkflow` — the initial root and every tree carried by any
emitted event (states and tree payloads alike) — the set of node ids has
cardinality equal to the number of nodes: no two nodes share an id. -/
theorem c1_unique_ids (env : Env) (b : Bool) (text : String)
    (mode : DecomposeMode) :
    UniqueIds (initialTree text) ∧
    ∀ e ∈ executeWorkflow env b text mode, ∀ t ∈ eventTrees e,
      UniqueIds t := by
  have main : (getAllNodeIds (initialTree text)).Nodup ∧
      ∀ e ∈ executeWorkflow env b text mode, ∀ t ∈ eventTrees e,
        (getAllNodeIds t).Nodup := by
    constructor
    · rw [initialTree_ids]
      exact List.nodup_singleton _
    · intro e he t ht
      have hnd0 : (getAllNodeIds (initialTree text)).Nodup := by
        rw [initialTree_ids]
        exact List.nodup_singleton _
      cases hf : env.flag 0 with
      | true =>
        rw [executeWorkflow_flag env b text mode hf] at he
        rcases List.mem_cons.1 he with rfl | he
        · simp only [eventTrees, createWorkflowState_currentTree,
            List.mem_singleton] at ht
          subst ht
          exact hnd0
        rcases List.mem_cons.1 he with rfl | he
        · simp only [eventTrees, createWorkflowState_currentTree,
            List.mem_singleton] at ht
          subst ht
          exact hnd0
        · simp only [List.mem_singleton] at he
          subst he
          simp only [eventTrees, createWorkflowState_currentTree, List.mem_cons,
            List.mem_singleton] at ht
          rcases ht with rfl | rfl | h
          · exact hnd0
          · exact hnd0
          · simp at h
      | false =>
        cases hd : env.decomp 0 with
        | error er =>
          rw [executeWorkflow_rootErr env b text mode er hf hd] at he
          rcases List.mem_cons.1 he with rfl | he
          · simp only [eventTrees, createWorkflowState_currentTree,
              List.mem_singleton] at ht
            subst ht
            exact hnd0
          rcases List.mem_cons.1 he with rfl | he
          · simp only [eventTrees, createWorkflowState_currentTree,
              List.mem_singleton] at ht
            subst ht
            exact hnd0
          · simp only [List.mem_singleton] at he
            subst he
            simp [eventTrees] at ht
        | ok ai =>
          rw [executeWorkflow_rootOk env b text mode ai hf hd] at he
          rcases List.mem_append.1 he with he | he
          · rcases List.mem_cons.1 he with rfl | he
            · simp only [eventTrees, createWorkflowState_currentTree,
                List.mem_singleton] at ht
              subst ht
              exact hnd0
            rcases List.mem_cons.1 he with rfl | he
            · simp only [eventTrees, createWorkflowState_currentTree,
                List.mem_singleton] at ht
              subst ht
              exact hnd0
            · simp only [List.mem_singleton] at he
              subst he
              simp only [eventTrees, createWorkflowState_currentTree,
                List.mem_cons, List.mem_singleton] at ht
              rcases ht with rfl | rfl | h
              · exact rootTree1_nodup text ai
              · exact rootTree1_nodup text ai
              · simp at h
          · exact passLoop_nodup env maxIterations (rootTree1 text ai) ⟨0, 1, 1⟩
              (rootTree1_nodup text ai) e he t ht
  exact ⟨uniqueIds_of_nodup _ main.1,
    fun e he t ht => uniqueIds_of_nodup _ (main.2 e he t ht)⟩

/-- C2: every session's event sequence ends with exactly one terminal
event (`complete`, `terminated` or `error`) as its last element; the
transport writes one frame per event up to and including the first
terminal one, writes nothing after it, and always closes the channel —
also when handed a sequence with no terminal event. -/
theorem c2_terminal_structure (env : Env) (b : Bool) (text : String)
    (mode : DecomposeMode) :
    TerminalLast (executeWorkflow env b text mode) ∧
    (∀ evs : List WEvent, (transportRun mode evs).2 = true) ∧
    (∀ evs : List WEvent,
      (transportRun mode evs).1 = (takeUntilTerminal evs).map (encodeEvent mode)) ∧
    (transportRun mode (executeWorkflow env b text mode)).1 =
      (executeWorkflow env b text mode).map (encodeEvent mode) := by
  refine ⟨executeWorkflow_terminal env b text mode, transportRun_closed mode,
    transportRun_frames mode, ?_⟩
  rw [transportRun_frames mode,
    takeUntilTerminal_of_terminalLast _ (executeWorkflow_terminal env b text mode)]

/-- C4 (counterexample): in a session where the second leaf needs
decomposition and its expansion succeeds with two children, the progress
values emitted are 33, 20, 40, 60 — the value drops from 33 to 20 when
the expansion grows `totalNodes`, so the sequence is not non-decreasing. -/
theorem c4_counterexample :
    progressValues (executeWorkflow envGrow false "T" DecomposeMode.concept)
        = [33, 20, 40, 60] ∧
      nonDecreasing
        (progressValues (executeWorkflow envGrow false "T" DecomposeMode.concept))
        = false := by
  constructor
  · rfl
  · rfl

/-- C4 (amended): progress values are non-decreasing within a session in
which no successful expansion occurs after a progress event — e.g. when
every classification returns `canAnswerDirectly = true`; a successful
mid-session expansion increases `totalNodes` and can strictly decrease
the next progress value. -/
theorem c4_progress_nonDecreasing (env : Env) (b : Bool) (text : String)
    (mode : DecomposeMode)
    (hjudge : ∀ k, ∃ jd, env.judge k = .ok jd ∧ jd.canDirectlyAnswer = true)
    (hflag : ∀ k, env.flag k = false) :
    nonDecreasing (progressValues (executeWorkflow env b text mode)) = true := by
  cases hd : env.decomp 0 with
  | error er =>
    rw [executeWorkflow_rootErr env b text mode er (hflag 0) hd]
    rfl
  | ok ai =>
    rw [executeWorkflow_rootOk env b text mode ai (hflag 0) hd]
    rw [progressValues_append]
    rcases passLoop_progress env hjudge hflag maxIterations (rootTree1 text ai)
      ⟨0, 1, 1⟩ (rootTree1_nodup text ai) with ⟨K, hK⟩
    rw [hK]
    show nonDecreasing ([] ++ progSeq _ _ K) = true
    rw [List.nil_append]
    exact (progSeq_nonDecr _ K _).1

theorem c4_progress_nonDecreasing_witness :
    nonDecreasing
      (progressValues (executeWorkflow envAllTrue false "t" DecomposeMode.task))
      = true :=
  c4_progress_nonDecreasing envAllTrue false "t" DecomposeMode.task
    (fun _ => ⟨judgeYesR, rfl, rfl⟩) (fun _ => rfl)

/-- C9: `executeWorkflow` resets the shared `shouldTerminate` flag before
emitting any event, so (i) the whole trace is independent of the flag
value at call time, (ii) with no termination request arriving during the
session no `terminated` event is ever emitted — a request issued before
the session started cannot terminate it — and (iii) a reset makes the
shared flag read false regardless of earlier termination requests, so a
new session on the shared controller clears a pending request for the
sessions in flight. -/
theorem c9_reset_before_events :
    (∀ (env : Env) (text : String) (mode : DecomposeMode) (b1 b2 : Bool),
      executeWorkflow env b1 text mode = executeWorkflow env b2 text mode) ∧
    (∀ (env : Env) (b : Bool) (text : String) (mode : DecomposeMode),
      (∀ k, env.flag k = false) →
      (executeWorkflow env b text mode).filter isTerminatedEv = []) ∧
    (∀ (b : Bool) (ops ops' : List FlagOp),
      flagAfter b (ops ++ FlagOp.reset :: ops') = flagAfter false ops') := by
  refine ⟨fun env text mode b1 b2 => rfl, ?_, flagAfter_reset⟩
  intro env b text mode hflag
  rw [List.filter_eq_nil_iff]
  intro e he
  rw [executeWorkflow_noTerminated env b text mode hflag e he]
  simp

theorem c9_reset_before_events_witness :
    (executeWorkflow envAllTrue true "q" DecomposeMode.task).filter
      isTerminatedEv = [] :=
  c9_reset_before_events.2.1 envAllTrue true "q" DecomposeMode.task
    (fun _ => rfl)

/-- C5: a failing Expansion Service call on a non-root pending leaf is
recovered locally — in any session state, the iteration marks the leaf
`can_answer` with `canDirectlyAnswer = true`, emits no `error` event for
it and continues with the remaining leaves; in the concrete failing
session no `error` is emitted and the run ends in `complete` — whereas a
failure of the initial root expansion, or of any classification call, is
unrecovered and ends the session with an `error` event. -/
theorem c5_error_asymmetry :
    (∀ (env : Env) (leaf : TreeNode) (rest : List TreeNode) (tree : TreeNode)
        (cnt : Counters) (jd : Judgement) (e : String),
      env.flag cnt.f = false → env.judge cnt.j = .ok jd →
      jd.canDirectlyAnswer = false → env.decomp cnt.d = .error e →
      (processLeaves env (leaf :: rest) tree cnt).1 =
          WEvent.judge_node leaf.id false (judgePreMessage leaf.content)
              (createWorkflowState tree) ::
            WEvent.decompose_node leaf.id (decomposeNodeMessage leaf.content)
              (createWorkflowState tree) ::
            WEvent.judge_node leaf.id true (nodeFailMessage leaf.content)
              (createWorkflowState
                (updateNodeInTree tree leaf.id Status.can_answer true)) ::
            WEvent.progress
              (jsRoundPct
                (createWorkflowState
                  (updateNodeInTree tree leaf.id Status.can_answer true)).processedNodes
                (createWorkflowState
                  (updateNodeInTree tree leaf.id Status.can_answer true)).totalNodes)
              (progressMessage
                (createWorkflowState
                  (updateNodeInTree tree leaf.id Status.can_answer true)))
              (createWorkflowState
                (updateNodeInTree tree leaf.id Status.can_answer true)) ::
            (processLeaves env rest
              (updateNodeInTree tree leaf.id Status.can_answer true)
              ⟨cnt.j + 1, cnt.d + 1, cnt.f + 1⟩).1 ∧
        (processLeaves env (leaf :: rest) tree cnt).2 =
          (processLeaves env rest
            (updateNodeInTree tree leaf.id Status.can_answer true)
            ⟨cnt.j + 1, cnt.d + 1, cnt.f + 1⟩).2) ∧
    ((executeWorkflow envNodeFail false "T" DecomposeMode.concept).filter
        isErrorEv = [] ∧
      completesWith (executeWorkflow envNodeFail false "T" DecomposeMode.concept)
        "root-1" = some (Status.can_answer, some true)) ∧
    (∀ (e : String) (b : Bool) (text : String) (mode : DecomposeMode),
      executeWorkflow (envRootFail e) b text mode =
        [.start (startMessage mode) (createWorkflowState (initialTree text)),
         .decompose_node "root" "正在分解根任务..."
           (createWorkflowState (initialTree text)),
         .error e]) ∧
    (∀ e : String,
      (executeWorkflow (envJudgeFail e) false "T" DecomposeMode.concept).getLast?
        = some (.error e)) := by
  refine ⟨?_, ⟨rfl, rfl⟩, ?_, ?_⟩
  · intro env leaf rest tree cnt jd e hf hj hy hd
    rw [processLeaves_decompErr env leaf rest tree cnt jd e hf hj hy hd]
    exact ⟨rfl, rfl⟩
  · intro e b text mode
    exact executeWorkflow_rootErr (envRootFail e) b text mode e rfl rfl
  · intro e
    rfl

theorem c5_error_asymmetry_witness :
    (processLeaves envNodeFail [mkLeaf "root-1"] (rootTree1 "T" aiRoot1)
        ⟨0, 1, 1⟩).2 =
      (processLeaves envNodeFail []
        (updateNodeInTree (rootTree1 "T" aiRoot1) "root-1" Status.can_answer true)
        ⟨1, 2, 2⟩).2 :=
  (c5_error_asymmetry.1 envNodeFail (mkLeaf "root-1") [] (rootTree1 "T" aiRoot1)
    ⟨0, 1, 1⟩ judgeNoR "expansion boom" rfl rfl rfl rfl).2

/-! ## Graft id allocation (C7) -/

theorem assignUniqueId_root_id (t : TreeNode) (pre : String)
    (used : List String) :
    (assignUniqueId t pre used).1.id = freshId used pre := by
  cases t with
  | mk i c cs e s l a => cases cs <;> rfl

/-- C7 (counterexample): grafting an expansion result onto pending leaf
`root-2` of the tree `root, root-1, root-2` renames the grafted root to
`root-2-1` — the slot's own id `root-2` is already taken, so the `while`
loop appends `-1` — and the resulting tree no longer contains `root-2`. -/
theorem c7_counterexample :
    (ensureUniqueIds (convertToTreeNode aiSub2 Status.pending)
        (rootTree1 "T" aiRoot2) "root-2").id = "root-2-1" ∧
    ("root-2-1" : String) ≠ "root-2" ∧
    getAllNodeIds
        (replaceNodeInTree (rootTree1 "T" aiRoot2) "root-2"
          ((ensureUniqueIds (convertToTreeNode aiSub2 Status.pending)
            (rootTree1 "T" aiRoot2) "root-2").setExpanded true)) =
      ["root", "root-1", "root-2-1", "root-2-1-1", "root-2-1-2"] := by
  refine ⟨rfl, by decide, rfl⟩

/-- C7 (amended): when `executeWorkflow` grafts an expansion result onto
an existing pending leaf, the grafted subtree's root does **not** keep
the slot's id: since the slot id is still in the tree's id set when the
allocator runs, the root receives the first free id of the form
`<slotId>-k` (k = 1, 2, …); all ids of the grafted subtree — root
included — are freshly allocated against the id set of the current tree
and pairwise distinct. -/
theorem c7_graft_ids (node tree : TreeNode) (x : String)
    (hx : x ∈ getAllNodeIds tree) :
    (∃ k, 1 ≤ k ∧ (ensureUniqueIds node tree x).id = candidateId x k) ∧
    (ensureUniqueIds node tree x).id ≠ x ∧
    (getAllNodeIds (ensureUniqueIds node tree x)).Nodup ∧
    (∀ z ∈ getAllNodeIds (ensureUniqueIds node tree x),
      z ∉ getAllNodeIds tree) := by
  have hid : (ensureUniqueIds node tree x).id
      = freshId (getAllNodeIds tree) x := assignUniqueId_root_id _ _ _
  have hspec := ensureUniqueIds_spec node tree x
  refine ⟨?_, ?_, hspec.1, fun z hz => (hspec.2 z hz).1⟩
  · rw [hid]
    rcases freshId_form (getAllNodeIds tree) x with h | h
    · exact absurd (show freshId (getAllNodeIds tree) x ∈ getAllNodeIds tree by
        rw [h]; exact hx) (freshId_not_mem (getAllNodeIds tree) x)
    · exact h
  · rw [hid]
    intro hc
    exact freshId_not_mem (getAllNodeIds tree) x (by rw [hc]; exact hx)

theorem c7_graft_ids_witness :
    ("root-2" ∈ getAllNodeIds (rootTree1 "T" aiRoot2)) ∧
    (ensureUniqueIds (convertToTreeNode aiSub2 Status.pending)
      (rootTree1 "T" aiRoot2) "root-2").id ≠ "root-2" :=
  ⟨by decide,
    (c7_graft_ids (convertToTreeNode aiSub2 Status.pending)
      (rootTree1 "T" aiRoot2) "root-2" (by decide)).2.1⟩

/-- C8: with classification returning `canAnswerDirectly = true`
(confidence 0.82) for pending leaf `root-1`, the node ends in status
`can_answer` with `canDirectlyAnswer = true`, no `decompose_node` event
is ever emitted for `root-1`, the state before the judgment carried
`processedNodes = 0`, and the `progress` events carry `processedNodes`
1 then 2 — exactly one greater after each judgment. -/
theorem c8_judge_true_scenario :
    completesWith (executeWorkflow envAllTrue false "T" DecomposeMode.concept)
        "root-1" = some (Status.can_answer, some true) ∧
    (executeWorkflow envAllTrue false "T" DecomposeMode.concept).filter
        (isDecomposeNodeFor "root-1") = [] ∧
    judgeStates "root-1"
        (executeWorkflow envAllTrue false "T" DecomposeMode.concept) = [0] ∧
    progressProcessed
        (executeWorkflow envAllTrue false "T" DecomposeMode.concept) = [1, 2] := by
  refine ⟨rfl, rfl, rfl, rfl⟩

/-! ## Re-decomposition id namespacing (C6) -/

mutual
theorem remapChildIds_ids (pre : String) (t : TreeNode) :
    getAllNodeIds (remapChildIds pre t) =
      (getAllNodeIds t).map (fun i => pre ++ i) := by
  cases t with
  | mk i c cs e s l a =>
    cases cs with
    | none => rfl
    | some children =>
      simp only [remapChildIds, getAllNodeIds, List.map_cons]
      rw [remapForest_ids pre children]
termination_by sizeOf t

theorem remapForest_ids (pre : String) (ts : List TreeNode) :
    getAllNodeIdsForest (remapForest pre ts) =
      (getAllNodeIdsForest ts).map (fun i => pre ++ i) := by
  cases ts with
  | nil => rfl
  | cons t ts =>
    simp only [remapForest, getAllNodeIdsForest, List.map_append]
    rw [remapChildIds_ids pre t, remapForest_ids pre ts]
termination_by sizeOf ts
end

/-- C6 (counterexample): re-decomposing `root-2` at wall-clock value 5 on
a tree that already holds the id `root-2__5__a` elsewhere grafts exactly
that id again — the grafted id collides with an id already present and
the resulting tree has duplicate ids. -/
theorem c6_counterexample :
    ("root-2__5__a" ∈ getAllNodeIds c6Tree) ∧
    getAllNodeIdsForest
        (remapForest (subtreeIdPrefix "root-2" 5) (c6Data.children.getD []))
      = ["root-2__5__a"] ∧
    ¬ (getAllNodeIds (redecomposeGraft c6Tree "root-2" 5 c6Data)).Nodup := by
  refine ⟨by decide, rfl, by decide⟩

/-- C6 (amended): every node grafted under the target by
`redecomposeFromNode` receives exactly the id
`<nodeId>__<T>__<originalId>` where `T` is the wall-clock value read at
that `update`/`complete` frame and `originalId` its id in the returned
subtree; the grafted ids avoid every id already present in the tree
**provided** no existing id starts with the prefix `<nodeId>__<T>__` (the
code never checks this; a leftover or same-millisecond id breaks it, as
the counterexample shows). -/
theorem c6_redecompose_ids (tree dataTree : TreeNode) (nodeId : String)
    (now : Nat) :
    (getAllNodeIdsForest
        (remapForest (subtreeIdPrefix nodeId now) (dataTree.children.getD []))
      = (getAllNodeIdsForest (dataTree.children.getD [])).map
          (fun i => subtreeIdPrefix nodeId now ++ i)) ∧
    ((∀ z ∈ getAllNodeIds tree,
        ¬ (subtreeIdPrefix nodeId now).data <+: z.data) →
      ∀ y ∈ getAllNodeIdsForest
          (remapForest (subtreeIdPrefix nodeId now) (dataTree.children.getD [])),
        y ∉ getAllNodeIds tree) := by
  refine ⟨remapForest_ids _ _, ?_⟩
  intro hno y hy hmem
  rw [remapForest_ids] at hy
  rcases List.mem_map.1 hy with ⟨orig, _, rfl⟩
  apply hno _ hmem
  rw [string_data_append]
  exact List.prefix_append _ _

theorem c6_redecompose_ids_witness :
    ("root-2__5__a" ∉ getAllNodeIds (rootTree1 "T" aiRoot2)) :=
  (c6_redecompose_ids (rootTree1 "T" aiRoot2) c6Data "root-2" 5).2
    (by decide) "root-2__5__a" (by decide)

/-! ## Consumer: invalid JSON lines (C10) -/

/-- C10: a received line that starts with `data: ` but whose remainder
fails to parse leaves every field of the store untouched, and processing
of the remaining lines of the stream continues from the same store. -/
theorem c10_bad_line (Flow : Type) (parse : String → Option StreamData)
    (conv : Option TreeNode → Flow) (st : Store Flow) (line : String)
    (hbad : parse (jsSubstringFrom line 6) = none) :
    applyLine parse conv st line = st ∧
    (∀ rest : List String,
      rest.foldl (applyLine parse conv) (applyLine parse conv st line)
        = rest.foldl (applyLine parse conv) st) := by
  have h1 : applyLine parse conv st line = st := by
    unfold applyLine
    by_cases hs : jsStartsWith line "data: " = true
    · rw [if_pos hs, hbad]
    · rw [if_neg (by simpa using hs)]
  exact ⟨h1, fun rest => by rw [h1]⟩

theorem c10_bad_line_witness :
    applyLine (fun _ => none) (fun _ => ()) storeW "data: \x7bbad" = storeW :=
  (c10_bad_line Unit (fun _ => none) (fun _ => ()) storeW "data: \x7bbad" rfl).1

/-- C3 (the code drops split frames): the two chunks concatenate to
exactly the one well-formed frame; delivered whole, the consumer decodes
and applies exactly one event, but delivered split at a byte offset
inside the JSON body it decodes zero events and the store never changes —
`startStreamDecomposition` keeps no cross-read buffer, so the trailing
partial frame of the first read is lost instead of being prepended to the
next chunk. -/
theorem c3_split_frame_dropped :
    ("data: \x7b\"ty" ++ "pe\":\"progress\",\"progress\":50\x7d\n\n"
      = "data: " ++ frameBody ++ "\n\n") ∧
    (extractEvents tableParse ["data: " ++ frameBody ++ "\n\n"]).length = 1 ∧
    (extractEvents tableParse
      ["data: \x7b\"ty", "pe\":\"progress\",\"progress\":50\x7d\n\n"]).length = 0 ∧
    (∀ (Flow : Type) (conv : Option TreeNode → Flow) (st : Store Flow),
      applyChunks tableParse conv st
        ["data: \x7b\"ty", "pe\":\"progress\",\"progress\":50\x7d\n\n"] = st) := by
  refine ⟨rfl, rfl, rfl, ?_⟩
  intro Flow conv st
  rfl

end Fissio

